import Mathlib

/-!
# codesearch: file eligibility, function-name extraction and line indexing

A shallow embedding of `main.go` of the codesearch indexer.

Modelling conventions
* A Go `string` is a Lean `String`, i.e. a sequence of Unicode code points; the
  development therefore speaks about the valid UTF-8 strings.  All constants of
  the program (extensions, pattern literals) are ASCII.
* `regexp` patterns are given as syntax trees (`Regex`), one constructor per
  operator of the pattern text, and are executed by a backtracking matcher that
  lists the matches in priority order; Go documents its leftmost-first result as
  the one a backtracking search finds first.
* The Elasticsearch client, the file system and the YAML decoder are parameters.
* `bufio.Scanner` and `filepath.Walk` are modelled after their documented
  behaviour: the scanner yields the lines of a file as long as a line and its
  newline fit in the default buffer, the walk visits a tree in lexical order and
  stops at the first error its callback returns.
-/

namespace Codesearch

/-! ## Character classes -/

/-- The Perl class `\w` of Go's regexp syntax: `[0-9A-Za-z_]`. -/
def isWordChar (c : Char) : Bool :=
  ('0' ≤ c && c ≤ '9') || ('A' ≤ c && c ≤ 'Z') || c == '_' || ('a' ≤ c && c ≤ 'z')

/-- The Perl class `\s` of Go's regexp syntax: `[\t\n\f\r ]`. -/
def isPerlSpace (c : Char) : Bool :=
  c == '\t' || c == '\n' || c == '\x0c' || c == '\r' || c == ' '

/-- The class `[\w<>]` of the Java/Kotlin pattern. -/
def isTypeChar (c : Char) : Bool :=
  isWordChar c || c == '<' || c == '>'

/-- The class `[\w\*\s]` of the C/C++ pattern. -/
def isDeclChar (c : Char) : Bool :=
  isWordChar c || c == '*' || isPerlSpace c

/-- The negated class `[^)]`. -/
def isNotRParen (c : Char) : Bool :=
  !(c == ')')

/-- The pattern `.` without the `s` flag: any character but a newline. -/
def isNotNewline (c : Char) : Bool :=
  !(c == '\n')

/-- Go's `unicode.IsSpace`: the code points with the White_Space property. -/
def isSpace (c : Char) : Bool :=
  ('\t' ≤ c && c ≤ '\r') || c == ' ' || c == '\u0085' || c == '\u00a0' || c == '\u1680' ||
  ('\u2000' ≤ c && c ≤ '\u200a') || c == '\u2028' || c == '\u2029' || c == '\u202f' ||
  c == '\u205f' || c == '\u3000'

/-! ## `strings` helpers -/

/-- Go's `strings.HasSuffix`. -/
def HasSuffix (s suffix : String) : Bool :=
  suffix.data.isSuffixOf s.data

/-- Go's `strings.TrimSpace`: drop leading and trailing white space. -/
def TrimSpace (s : String) : String :=
  ⟨((s.data.dropWhile isSpace).reverse.dropWhile isSpace).reverse⟩

/-! ## File eligibility -/

/-- The local slice `extensions` of `supportedFileTypes`, entry by entry. -/
def extensions : List String := [
  ".asm", ".bat", ".bash", ".c", ".cc", ".cfg", ".clj", ".cljc", ".cljs", ".cmd",
  ".conf", ".cpp", ".cjs", ".cxx", ".dart", ".dockerfile", ".editorconfig", ".ejs",
  ".env", ".env.example", ".erb", ".erl", ".ex", ".exs", ".feature", ".go", ".gradle",
  ".groovy", ".h", ".hbs", ".hcl", ".hpp", ".hrl", ".htm", ".html", ".ini", ".java",
  ".js", ".json", ".jsonc", ".jsx", ".ksh", ".kt", ".kts", ".less", ".lisp", ".lsp",
  ".m", ".make", ".markdown", ".md", ".mk", ".mm", ".mjs", ".mustache", ".nomad",
  ".php", ".php5", ".plist", ".properties", ".ps1", ".psql", ".py", ".pyi", ".pyx",
  ".rb", ".rs", ".rst", ".s", ".sass", ".scala", ".scss", ".sh", ".spec.js",
  ".spec.ts", ".sql", ".swift", ".test.go", ".test.js", ".test.ts", ".tf", ".tfvars",
  ".toml", ".ts", ".tsx", ".tsv", ".twig", ".tsx", ".txt", ".xhtml", ".xml", ".yaml",
  ".yml", ".zsh", "Dockerfile", "Makefile", ".gitignore", ".gitattributes", ".terraform"]

/-- The function `supportedFileTypes`: the loop returns `true` at the first entry
that is a suffix of `path`, and `false` when the slice is exhausted. -/
def supportedFileTypes (path : String) : Bool :=
  extensions.any fun ext => HasSuffix path ext

/-! ## Regular expressions -/

/-- Syntax of the patterns of `functionPatterns`. -/
inductive Regex where
  /-- The anchor `^` (beginning of text, no `m` flag). -/
  | beginText
  /-- A literal run of characters. -/
  | lit (s : List Char)
  /-- A character class. -/
  | cls (p : Char → Bool)
  /-- Concatenation. -/
  | cat (a b : Regex)
  /-- Alternation `a|b`, preferring `a`. -/
  | alt (a b : Regex)
  /-- Repetition `a*` (greedy) or `a*?` (lazy). -/
  | star (greedy : Bool) (a : Regex)
  /-- Capturing group number `i`. -/
  | cap (i : Nat) (a : Regex)
  /-- The empty pattern. -/
  | empty

namespace Regex

/-- Repetition `a+`: one `a`, then `a*`. -/
def plus (a : Regex) : Regex := cat a (star true a)

/-- Option `a?`, preferring one occurrence. -/
def quest (a : Regex) : Regex := alt a empty

/-- Concatenation of a sequence of patterns. -/
def seq : List Regex → Regex
  | [] => empty
  | [a] => a
  | a :: b :: l => cat a (seq (b :: l))

/-- Go's `NumSubexp`: the number of capturing groups, which for consecutively
numbered groups is the largest group number. -/
def NumSubexp : Regex → Nat
  | beginText => 0
  | lit _ => 0
  | cls _ => 0
  | cat a b => max a.NumSubexp b.NumSubexp
  | alt a b => max a.NumSubexp b.NumSubexp
  | star _ a => a.NumSubexp
  | cap i a => max i a.NumSubexp
  | empty => 0

/-- The group numbers occurring in a pattern. -/
def groups : Regex → List Nat
  | beginText => []
  | lit _ => []
  | cls _ => []
  | cat a b => a.groups ++ b.groups
  | alt a b => a.groups ++ b.groups
  | star _ a => a.groups
  | cap i a => i :: a.groups
  | empty => []

end Regex

/-- A thread of the matcher: `pos` characters of the text are behind it, `rest`
is ahead, and `caps k` is the text of group `k` if the group has been closed. -/
structure MState where
  pos : Nat
  rest : List Char
  caps : Nat → Option (List Char)

/-- Strip a literal from the front of the text. -/
def stripLit : List Char → List Char → Option (List Char)
  | [], t => some t
  | _ :: _, [] => none
  | c :: l, d :: t => if c = d then stripLit l t else none

/-- Iterations of a starred pattern whose single-iteration matcher is `f`.  A
greedy star tries another iteration before stopping, a lazy one stops first.
Each iteration has to consume text, so `fuel` equal to the length of the
remaining text is never exhausted. -/
def starRun (f : MState → List MState) (greedy : Bool) : Nat → MState → List MState
  | 0, s => [s]
  | fuel + 1, s =>
    let more := ((f s).filter fun m => m.rest.length < s.rest.length).flatMap
      (starRun f greedy fuel)
    if greedy then more ++ [s] else s :: more

/-- All the ways a pattern matches at a thread, most preferred first. -/
def Regex.run : Regex → MState → List MState
  | .beginText, s => if s.pos = 0 then [s] else []
  | .lit l, s =>
    match stripLit l s.rest with
    | some t => [{ s with pos := s.pos + l.length, rest := t }]
    | none => []
  | .cls p, s =>
    match s.rest with
    | [] => []
    | c :: t => if p c then [{ s with pos := s.pos + 1, rest := t }] else []
  | .cat a b, s => (a.run s).flatMap b.run
  | .alt a b, s => a.run s ++ b.run s
  | .star greedy a, s => starRun a.run greedy s.rest.length s
  | .cap i a, s =>
    (a.run s).map fun m =>
      { m with caps := Function.update m.caps i (some (s.rest.take (m.pos - s.pos))) }
  | .empty, s => [s]

/-- The preferred match of `re` starting at character offset `i` of `s`. -/
def matchAt (re : Regex) (s : List Char) (i : Nat) : Option MState :=
  (re.run ⟨i, s.drop i, fun _ => none⟩).head?

/-- Go's `(*Regexp).FindStringSubmatch`: the leftmost match, as the list of the
text of the whole match followed by the text of each group (the empty string for
a group that did not take part); `none` stands for the nil slice. -/
def FindStringSubmatch (re : Regex) (s : String) : Option (List String) :=
  (List.range (s.data.length + 1)).findSome? fun i =>
    (matchAt re s.data i).map fun m =>
      (List.range (re.NumSubexp + 1)).map fun k =>
        if k = 0 then String.mk ((s.data.drop i).take (m.pos - i))
        else String.mk ((m.caps k).getD [])

/-! ## The pattern table -/

/-- The class `\s`. -/
def ws : Regex := .cls isPerlSpace
/-- The class `\w`. -/
def word : Regex := .cls isWordChar
/-- A literal given as a string. -/
def str (s : String) : Regex := .lit s.data

open Regex in
/-- Golang: `^\s*func\s+(\([^)]+\)\s*)?(\w+)\s*\(`. -/
def patGo : Regex :=
  seq [beginText, star true ws, str "func", plus ws,
    quest (cap 1 (seq [str "(", plus (cls isNotRParen), str ")", star true ws])),
    cap 2 (plus word), star true ws, str "("]

open Regex in
/-- Python and Scala: `^\s*def\s+(\w+)\s*\(`. -/
def patPython : Regex :=
  seq [beginText, star true ws, str "def", plus ws, cap 1 (plus word), star true ws, str "("]

open Regex in
/-- Js: `^\s*function\s+(\w+)\s*\(`. -/
def patJsFunction : Regex :=
  seq [beginText, star true ws, str "function", plus ws, cap 1 (plus word), star true ws,
    str "("]

open Regex in
/-- Js: `^\s*(?:const|let|var)\s+(\w+)\s*=\s*\(.*?\)\s*=>`. -/
def patJsArrow : Regex :=
  seq [beginText, star true ws, alt (str "const") (alt (str "let") (str "var")), plus ws,
    cap 1 (plus word), star true ws, str "=", star true ws, str "(",
    star false (cls isNotNewline), str ")", star true ws, str "=>"]

open Regex in
/-- Js: `^\s*(\w+)\s*=\s*function\s*\(`. -/
def patJsAssign : Regex :=
  seq [beginText, star true ws, cap 1 (plus word), star true ws, str "=", star true ws,
    str "function", star true ws, str "("]

open Regex in
/-- PHP: `^\s*(public|private|protected)?\s*function\s+(\w+)\s*\(`. -/
def patPhp : Regex :=
  seq [beginText, star true ws,
    quest (cap 1 (alt (str "public") (alt (str "private") (str "protected")))),
    star true ws, str "function", plus ws, cap 2 (plus word), star true ws, str "("]

open Regex in
/-- Java, Kotlin: `^\s*(public|private|protected)?\s*(static\s+)?[\w<>]+\s+(\w+)\s*\(`. -/
def patJava : Regex :=
  seq [beginText, star true ws,
    quest (cap 1 (alt (str "public") (alt (str "private") (str "protected")))),
    star true ws, quest (cap 2 (seq [str "static", plus ws])), plus (cls isTypeChar),
    plus ws, cap 3 (plus word), star true ws, str "("]

open Regex in
/-- C, C++: `^\s*[\w\*\s]+\s+(\w+)\s*\(.*\)\s*\{?`. -/
def patC : Regex :=
  seq [beginText, star true ws, plus (cls isDeclChar), plus ws, cap 1 (plus word),
    star true ws, str "(", star true (cls isNotNewline), str ")", star true ws,
    quest (str "\x7b")]

open Regex in
/-- Ruby: `^\s*def\s+(\w+)`. -/
def patRuby : Regex :=
  seq [beginText, star true ws, str "def", plus ws, cap 1 (plus word)]

open Regex in
/-- Dart, Rust: `^\s*fn\s+(\w+)`. -/
def patRust : Regex :=
  seq [beginText, star true ws, str "fn", plus ws, cap 1 (plus word)]

open Regex in
/-- Swift: `^\s*func\s+(\w+)`. -/
def patSwift : Regex :=
  seq [beginText, star true ws, str "func", plus ws, cap 1 (plus word)]

/-- The package variable `functionPatterns`, in source order. -/
def functionPatterns : List Regex :=
  [patGo, patPython, patJsFunction, patJsArrow, patJsAssign, patPhp, patJava, patC,
   patRuby, patRust, patSwift, patPython]

/-- The function `extractFunctionName`: the last submatch of the first pattern
that matches the trimmed line, or the empty string. -/
def extractFunctionName (line : String) : String :=
  let trimmed := TrimSpace line
  match functionPatterns.findSome? fun pattern => FindStringSubmatch pattern trimmed with
  | some submatches => submatches.getLastD ""
  | none => ""

/-! ## Auxiliary notions for the laws of the matcher -/

/-- Run `r` and continue every match, in order, with `K`. -/
def andThen (r : Regex) (K : MState → List MState) (s : MState) : List MState :=
  (r.run s).flatMap K

/-- The text of the last group in the preferred match of `re` at the start of `s`. -/
def lastSub (re : Regex) (s : List Char) : Option (List Char) :=
  (matchAt re s 0).map fun m => (m.caps re.NumSubexp).getD []

/-- Every match of `r` leaves in group `k` a non-empty run of word characters
taken from the text the match started on. -/
def CapturesWord (k : Nat) (r : Regex) : Prop :=
  ∀ s m, m ∈ r.run s →
    ∃ w, m.caps k = some w ∧ w ≠ [] ∧ (∀ c ∈ w, isWordChar c = true) ∧ w <:+: s.rest

/-! ## Configuration -/

/-- The struct `Repo`. -/
structure Repo where
  Name : String
  URL : String
deriving DecidableEq

/-- The struct `Config`. -/
structure Config where
  Repos : List Repo
deriving DecidableEq

/-- The function `readYAML`.  `ReadFile` stands for `os.ReadFile` (the bytes of
the file or an error) and `Unmarshal` for `yaml.Unmarshal`, which fills the
configuration it is given and reports a decoding error, if any.  The result is
the pair of return values; `none` is the nil error. -/
def readYAML (ReadFile : String → Except String String)
    (Unmarshal : String → Config → Config × Option String) (file : String) :
    Config × Option String :=
  let config : Config := ⟨[]⟩
  match ReadFile file with
  | .error err => (config, some err)
  | .ok data =>
    let (config, _err) := Unmarshal data config
    (config, none)

/-- How `main` leaves its first statement. -/
inductive Startup where
  /-- The call `log.Fatal(err)`: the process exits before anything else. -/
  | fatal (err : String)
  /-- Execution goes on to the client, the index reset and the repositories. -/
  | proceed (config : Config)
deriving DecidableEq

/-- The first statement of `main`: load `repos.yaml`, abort on an error. -/
def mainLoadConfig (ReadFile : String → Except String String)
    (Unmarshal : String → Config → Config × Option String) : Startup :=
  match readYAML ReadFile Unmarshal "repos.yaml" with
  | (_, some err) => .fatal err
  | (config, none) => .proceed config

/-! ## Reading a file line by line -/

/-- The constant `bufio.MaxScanTokenSize`, the largest buffer of a scanner that
was not given one with `Buffer`. -/
def MaxScanTokenSize : Nat := 64 * 1024

/-- The number of bytes of the UTF-8 encoding of a text. -/
def utf8Len (l : List Char) : Nat :=
  (l.map Char.utf8Size).sum

/-- The helper `dropCR` of `bufio.ScanLines`: drop one trailing carriage return. -/
def dropCR (l : List Char) : List Char :=
  if l.getLast? = some '\r' then l.dropLast else l

/-- The tokens that a `bufio.Scanner` with the split function `ScanLines` yields
on the rest `data` of a file, `cur` being the bytes of the current line read so
far, last byte first.  A line ends at a newline or at the end of the file; an
empty last line is no token.  With a buffer of `limit` bytes a line and its
newline have to fit in the buffer: when they do not, `Scan` reports
`ErrTooLong` by returning false, and the scanner yields nothing more.  No limit
(`none`) gives the lines of the file. -/
def scanFrom (limit : Option Nat) : List Char → List Char → List String
  | cur, [] =>
    if cur = [] then []
    else if limit.all (fun n => decide (utf8Len cur < n)) then [String.mk (dropCR cur.reverse)]
    else []
  | cur, c :: data =>
    if c = '\n' then
      if limit.all (fun n => decide (utf8Len cur < n)) then
        String.mk (dropCR cur.reverse) :: scanFrom limit [] data
      else []
    else scanFrom limit (c :: cur) data

/-- The lines of a file. -/
def fileLines (content : String) : List String :=
  scanFrom none [] content.data

/-- The lines that the loop `for scanner.Scan()` sees for a scanner made by
`bufio.NewScanner`. -/
def scannerLines (content : String) : List String :=
  scanFrom (some MaxScanTokenSize) [] content.data

/-! ## Indexing -/

/-- The struct `CodeLine`.  The field `Line` is a Go `int`; it counts the lines
of one file and stays far below the largest `int`. -/
structure CodeLine where
  Repository : String
  FilePath : String
  Line : Nat
  Content : String
  Function : String
deriving DecidableEq

/-- What the index has been sent so far, oldest first, and the log. -/
structure World where
  indexed : List CodeLine
  log : List String

/-- The Elasticsearch client as seen by `indexCode`: the answer to an index
request, an error or none, which may depend on everything sent before. -/
abbrev Store := List CodeLine → CodeLine → Option String

/-- A store that accepts every document. -/
def acceptAll : Store := fun _ _ => none

/-- The body of the loop `for scanner.Scan()` of `indexCode`, over the lines
the scanner yields, with the counter `lineNum` as it is before the line. -/
def scanLoop (es : Store) (repoUrl path : String) : List String → Nat → World → World
  | [], _, w => w
  | line :: rest, lineNum, w =>
    let lineNum := lineNum + 1
    let functionName := extractFunctionName line
    let doc : CodeLine :=
      { Repository := repoUrl, FilePath := path, Line := lineNum, Content := line,
        Function := functionName }
    let w :=
      match es w.indexed doc with
      | some err =>
        { indexed := w.indexed ++ [doc], log := w.log ++ ["indexing error: " ++ err] }
      | none => { w with indexed := w.indexed ++ [doc] }
    scanLoop es repoUrl path rest lineNum w

/-- The function literal that `indexCode` passes to `filepath.Walk`.  `Open`
stands for `os.Open` followed by reading the file: an error, or the content.
`isDir` is `info.IsDir()` and `err` the error of the walk for this entry. -/
def walkFn (es : Store) (Open : String → Except String String) (repoUrl : String)
    (path : String) (isDir : Bool) (err : Option String) (w : World) :
    World × Option String :=
  if err.isSome || isDir then (w, none)
  else if !supportedFileTypes path then (w, none)
  else
    match Open path with
    | .error e => (w, some e)
    | .ok content => (scanLoop es repoUrl path (scannerLines content) 0 w, none)

/-- A directory tree as `filepath.Walk` meets it. -/
inductive Entry where
  /-- An entry that is not a directory. -/
  | file (path : String)
  /-- A directory, the error of reading its names if any, and its entries in
  lexical order. -/
  | dir (path : String) (readErr : Option String) (children : List Entry)
  /-- An entry whose `Lstat` failed. -/
  | lstatErr (path : String) (err : String)

mutual
/-- The function `filepath.Walk` on one entry: the callback runs on the entry,
then on the entries of a directory that could be read, until it returns an
error.  (The callback of `indexCode` returns nil or the error of `os.Open`,
never `SkipDir` or `SkipAll`.) -/
def walk (fn : String → Bool → Option String → World → World × Option String) :
    Entry → World → World × Option String
  | .file path, w => fn path false none w
  | .dir path readErr children, w =>
    match fn path true readErr w with
    | (w, some err) => (w, some err)
    | (w, none) => if readErr.isSome then (w, none) else walkList fn children w
  | .lstatErr path err, w => fn path false (some err) w
/-- The loop of `filepath.Walk` over the entries of a directory. -/
def walkList (fn : String → Bool → Option String → World → World × Option String) :
    List Entry → World → World × Option String
  | [], w => (w, none)
  | e :: rest, w =>
    match walk fn e w with
    | (w, some err) => (w, some err)
    | (w, none) => walkList fn rest w
end

/-- The function `indexCode`, on the tree under `root`. -/
def indexCode (es : Store) (Open : String → Except String String) (repoUrl : String)
    (root : Entry) (w : World) : World × Option String :=
  walk (walkFn es Open repoUrl) root w

/-- A line of `MaxScanTokenSize + 1` letters `a`, one byte each: one byte longer
than the default buffer. -/
@[irreducible] def longLine : List Char := List.replicate (MaxScanTokenSize + 1) 'a'

/-! ## Laws of the matcher -/

theorem run_eq_andThen (r : Regex) (s : MState) : r.run s = andThen r (fun m => [m]) s := by
  simp [andThen]

theorem andThen_cat (a b : Regex) (K : MState → List MState) (s : MState) :
    andThen (.cat a b) K s = andThen a (andThen b K) s := by
  simp only [andThen, Regex.run, List.flatMap_assoc]
  rfl

theorem andThen_alt (a b : Regex) (K : MState → List MState) (s : MState) :
    andThen (.alt a b) K s = andThen a K s ++ andThen b K s := by
  simp [andThen, Regex.run]

theorem andThen_empty (K : MState → List MState) (s : MState) :
    andThen .empty K s = K s := by
  simp [andThen, Regex.run]

theorem andThen_beginText (K : MState → List MState) (s : MState) :
    andThen .beginText K s = if s.pos = 0 then K s else [] := by
  simp only [andThen, Regex.run]
  split <;> simp

theorem andThen_lit (l : List Char) (K : MState → List MState) (s : MState) :
    andThen (.lit l) K s =
      match stripLit l s.rest with
      | some t => K { s with pos := s.pos + l.length, rest := t }
      | none => [] := by
  simp only [andThen, Regex.run]
  split <;> simp

theorem andThen_cls_cons (p : Char → Bool) (K : MState → List MState) (pos : Nat) (c : Char)
    (t : List Char) (caps : Nat → Option (List Char)) :
    andThen (.cls p) K ⟨pos, c :: t, caps⟩ = if p c then K ⟨pos + 1, t, caps⟩ else [] := by
  simp only [andThen, Regex.run]
  split <;> simp

theorem andThen_cls_nil (p : Char → Bool) (K : MState → List MState) (pos : Nat)
    (caps : Nat → Option (List Char)) :
    andThen (.cls p) K ⟨pos, [], caps⟩ = [] := by
  simp [andThen, Regex.run]

theorem andThen_cap (i : Nat) (a : Regex) (K : MState → List MState) (s : MState) :
    andThen (.cap i a) K s =
      andThen a (fun m => K { m with
        caps := Function.update m.caps i (some (s.rest.take (m.pos - s.pos))) }) s := by
  simp [andThen, Regex.run, List.flatMap_map]

theorem andThen_star_cls_nil (g : Bool) (p : Char → Bool) (K : MState → List MState) (pos : Nat)
    (caps : Nat → Option (List Char)) :
    andThen (.star g (.cls p)) K ⟨pos, [], caps⟩ = K ⟨pos, [], caps⟩ := by
  simp [andThen, Regex.run, starRun]

theorem andThen_star_cls_cons (g : Bool) (p : Char → Bool) (K : MState → List MState) (pos : Nat)
    (c : Char) (t : List Char) (caps : Nat → Option (List Char)) :
    andThen (.star g (.cls p)) K ⟨pos, c :: t, caps⟩ =
      if p c then
        (if g then andThen (.star g (.cls p)) K ⟨pos + 1, t, caps⟩ ++ K ⟨pos, c :: t, caps⟩
         else K ⟨pos, c :: t, caps⟩ ++ andThen (.star g (.cls p)) K ⟨pos + 1, t, caps⟩)
      else K ⟨pos, c :: t, caps⟩ := by
  simp only [andThen, Regex.run, starRun, List.length_cons]
  by_cases hp : p c = true <;> cases g <;> simp [hp]


theorem andThen_star_cls_stop (g : Bool) (p : Char → Bool) (K : MState → List MState)
    (pos : Nat) (rest : List Char) (caps : Nat → Option (List Char))
    (h : ∀ c ∈ rest.head?, p c = false) :
    andThen (.star g (.cls p)) K ⟨pos, rest, caps⟩ = K ⟨pos, rest, caps⟩ := by
  cases rest with
  | nil => exact andThen_star_cls_nil g p K pos caps
  | cons c t =>
    have hc : p c = false := h c (by simp)
    rw [andThen_star_cls_cons]
    simp [hc]

theorem andThen_star_cls_append (g : Bool) (p : Char → Bool) (K : MState → List MState)
    (w t : List Char) (caps : Nat → Option (List Char))
    (hw : ∀ c ∈ w, p c = true)
    (hK : ∀ c t' pos', p c = true → K ⟨pos', c :: t', caps⟩ = []) :
    ∀ pos, andThen (.star g (.cls p)) K ⟨pos, w ++ t, caps⟩ =
      andThen (.star g (.cls p)) K ⟨pos + w.length, t, caps⟩ := by
  induction w with
  | nil => intro pos; simp
  | cons c w ih =>
    intro pos
    have hc : p c = true := hw c (by simp)
    have ih' := ih (fun x hx => hw x (by simp [hx])) (pos + 1)
    rw [List.cons_append, andThen_star_cls_cons, if_pos hc, hK c _ _ hc, ih']
    have e : pos + 1 + w.length = pos + (c :: w).length := by simp; omega
    cases g <;> simp [e]

theorem andThen_cap_plus_cls (i : Nat) (p : Char → Bool) (K : MState → List MState)
    (w t : List Char) (pos : Nat) (caps : Nat → Option (List Char))
    (hne : w ≠ []) (hw : ∀ c ∈ w, p c = true) (ht : ∀ c ∈ t.head?, p c = false)
    (hK : ∀ c t' pos' caps', p c = true → K ⟨pos', c :: t', caps'⟩ = []) :
    andThen (.cap i (Regex.plus (.cls p))) K ⟨pos, w ++ t, caps⟩ =
      K ⟨pos + w.length, t, Function.update caps i (some w)⟩ := by
  cases w with
  | nil => exact absurd rfl hne
  | cons c w =>
    have hc : p c = true := hw c (by simp)
    rw [andThen_cap, Regex.plus, andThen_cat, List.cons_append, andThen_cls_cons, if_pos hc]
    have hw' : ∀ x ∈ w, p x = true := fun x hx => hw x (by simp [hx])
    have key : ∀ K' : MState → List MState,
        (∀ c t' pos', p c = true → K' ⟨pos', c :: t', caps⟩ = []) →
        andThen (.star true (.cls p)) K' ⟨pos + 1, w ++ t, caps⟩ =
          K' ⟨pos + 1 + w.length, t, caps⟩ := fun K' h => by
      rw [andThen_star_cls_append true p K' w t caps hw' h,
        andThen_star_cls_stop _ _ _ _ _ _ ht]
    rw [key]
    · have e1 : pos + 1 + w.length - pos = w.length + 1 := by omega
      have e2 : pos + 1 + w.length = pos + (c :: w).length := by simp; omega
      have e3 : List.take (w.length + 1) (c :: (w ++ t)) = c :: w := by simp
      simp only [e1, e3]
      rw [e2]
    · intro c t' pos' hc
      exact hK _ _ _ _ hc

theorem getLastD_map_range (f : Nat → String) (n : Nat) (d : String) :
    ((List.range (n + 1)).map f).getLastD d = f n := by
  rw [List.range_succ, List.map_append]
  simp

theorem matchAt_anchored_succ (r : Regex) (s : List Char) (i : Nat) :
    matchAt (.cat .beginText r) s (i + 1) = none := by
  simp [matchAt, Regex.run]

theorem findSome?_range_succ {α : Type} (f : Nat → Option α) (h : ∀ i, f (i + 1) = none)
    (n : Nat) : (List.range (n + 1)).findSome? f = f 0 := by
  rw [List.range_succ_eq_map, List.findSome?_cons]
  cases h0 : f 0 with
  | some a => rfl
  | none =>
    simp only
    rw [List.findSome?_eq_none_iff]
    intro x hx
    obtain ⟨i, -, rfl⟩ := List.mem_map.mp hx
    exact h i

theorem findStringSubmatch_anchored (r : Regex) (s : String)
    (hn : (Regex.cat .beginText r).NumSubexp ≠ 0) :
    (FindStringSubmatch (.cat .beginText r) s).map (fun l => l.getLastD "") =
      (lastSub (.cat .beginText r) s.data).map String.mk := by
  unfold FindStringSubmatch lastSub
  rw [findSome?_range_succ _ (by intro i; simp [matchAt_anchored_succ])]
  cases h : matchAt (.cat .beginText r) s.data 0 with
  | some m =>
    simp only [Option.map_some']
    rw [getLastD_map_range]
    simp [hn]
  | none => simp



/-! ## Facts about the character classes -/

theorem char_le_iff (a b : Char) : a ≤ b ↔ a.toNat ≤ b.toNat := Iff.rfl

theorem char_eq_iff (a b : Char) : a = b ↔ a.toNat = b.toNat := by
  constructor
  · rintro rfl; rfl
  · intro h
    have := congrArg Char.ofNat h
    simpa using this

theorem isWordChar_iff (c : Char) : isWordChar c = true ↔
    (48 ≤ c.toNat ∧ c.toNat ≤ 57) ∨ (65 ≤ c.toNat ∧ c.toNat ≤ 90) ∨ c.toNat = 95 ∨
      (97 ≤ c.toNat ∧ c.toNat ≤ 122) := by
  simp only [isWordChar, Bool.or_eq_true, Bool.and_eq_true, decide_eq_true_eq, beq_iff_eq,
    char_le_iff, char_eq_iff, Char.reduceToNat, or_assoc]

theorem isPerlSpace_iff (c : Char) : isPerlSpace c = true ↔
    c.toNat = 9 ∨ c.toNat = 10 ∨ c.toNat = 12 ∨ c.toNat = 13 ∨ c.toNat = 32 := by
  simp only [isPerlSpace, Bool.or_eq_true, beq_iff_eq, char_eq_iff, Char.reduceToNat, or_assoc]

theorem isTypeChar_iff (c : Char) : isTypeChar c = true ↔
    isWordChar c = true ∨ c.toNat = 60 ∨ c.toNat = 62 := by
  simp only [isTypeChar, Bool.or_eq_true, beq_iff_eq, char_eq_iff, Char.reduceToNat, or_assoc]

theorem isSpace_of_isPerlSpace {c : Char} (h : isPerlSpace c = true) : isSpace c = true := by
  rw [isPerlSpace_iff] at h
  simp only [isSpace, Bool.or_eq_true, Bool.and_eq_true, decide_eq_true_eq, beq_iff_eq,
    char_le_iff, char_eq_iff, Char.reduceToNat]
  omega

theorem isTypeChar_of_word {c : Char} (h : isWordChar c = true) : isTypeChar c = true := by
  rw [isTypeChar_iff]; exact Or.inl h

theorem isPerlSpace_of_type {c : Char} (h : isTypeChar c = true) : isPerlSpace c = false := by
  rw [isTypeChar_iff, isWordChar_iff] at h
  rw [← Bool.not_eq_true, isPerlSpace_iff]
  omega

theorem isPerlSpace_of_word {c : Char} (h : isWordChar c = true) : isPerlSpace c = false :=
  isPerlSpace_of_type (isTypeChar_of_word h)

theorem lparen_ne_of_type {c : Char} (h : isTypeChar c = true) : ¬ ('(' = c) := by
  rw [isTypeChar_iff, isWordChar_iff] at h
  rw [char_eq_iff]
  simp only [Char.reduceToNat]
  omega

theorem lparen_ne_of_word {c : Char} (h : isWordChar c = true) : ¬ ('(' = c) :=
  lparen_ne_of_type (isTypeChar_of_word h)

theorem equals_ne_of_type {c : Char} (h : isTypeChar c = true) : ¬ ('=' = c) := by
  rw [isTypeChar_iff, isWordChar_iff] at h
  rw [char_eq_iff]
  simp only [Char.reduceToNat]
  omega

theorem equals_ne_of_word {c : Char} (h : isWordChar c = true) : ¬ ('=' = c) :=
  equals_ne_of_type (isTypeChar_of_word h)

/-- The classes on the characters that occur in the keywords of the patterns. -/
theorem class_table :
    isPerlSpace 'a' = false ∧ isWordChar 'a' = true ∧ isTypeChar 'a' = true ∧
    isPerlSpace 'b' = false ∧ isWordChar 'b' = true ∧ isTypeChar 'b' = true ∧
    isPerlSpace 'c' = false ∧ isWordChar 'c' = true ∧ isTypeChar 'c' = true ∧
    isPerlSpace 'd' = false ∧ isWordChar 'd' = true ∧ isTypeChar 'd' = true ∧
    isPerlSpace 'e' = false ∧ isWordChar 'e' = true ∧ isTypeChar 'e' = true ∧
    isPerlSpace 'f' = false ∧ isWordChar 'f' = true ∧ isTypeChar 'f' = true ∧
    isPerlSpace 'i' = false ∧ isWordChar 'i' = true ∧ isTypeChar 'i' = true ∧
    isPerlSpace 'l' = false ∧ isWordChar 'l' = true ∧ isTypeChar 'l' = true ∧
    isPerlSpace 'n' = false ∧ isWordChar 'n' = true ∧ isTypeChar 'n' = true ∧
    isPerlSpace 'o' = false ∧ isWordChar 'o' = true ∧ isTypeChar 'o' = true ∧
    isPerlSpace 'p' = false ∧ isWordChar 'p' = true ∧ isTypeChar 'p' = true ∧
    isPerlSpace 'r' = false ∧ isWordChar 'r' = true ∧ isTypeChar 'r' = true ∧
    isPerlSpace 's' = false ∧ isWordChar 's' = true ∧ isTypeChar 's' = true ∧
    isPerlSpace 't' = false ∧ isWordChar 't' = true ∧ isTypeChar 't' = true ∧
    isPerlSpace 'u' = false ∧ isWordChar 'u' = true ∧ isTypeChar 'u' = true ∧
    isPerlSpace 'v' = false ∧ isWordChar 'v' = true ∧ isTypeChar 'v' = true ∧
    isPerlSpace ' ' = true ∧ isWordChar ' ' = false ∧ isTypeChar ' ' = false ∧
    isPerlSpace '(' = false ∧ isWordChar '(' = false ∧ isTypeChar '(' = false := by
  repeat' apply And.intro
  all_goals decide

/-! ## Further laws: repetition over a class, groups, literals -/

theorem andThen_plus (a : Regex) (K : MState → List MState) (s : MState) :
    andThen (Regex.plus a) K s = andThen a (andThen (.star true a) K) s := by
  rw [Regex.plus, andThen_cat]

theorem andThen_quest (a : Regex) (K : MState → List MState) (s : MState) :
    andThen (Regex.quest a) K s = andThen a K s ++ K s := by
  rw [Regex.quest, andThen_alt, andThen_empty]

theorem andThen_cap_cat (i : Nat) (a b : Regex) (K : MState → List MState) (s : MState) :
    andThen (.cap i (.cat a b)) K s =
      andThen (.cat a b) (fun m => K { m with
        caps := Function.update m.caps i (some (s.rest.take (m.pos - s.pos))) }) s :=
  andThen_cap i _ K s

theorem andThen_cap_alt (i : Nat) (a b : Regex) (K : MState → List MState) (s : MState) :
    andThen (.cap i (.alt a b)) K s =
      andThen (.alt a b) (fun m => K { m with
        caps := Function.update m.caps i (some (s.rest.take (m.pos - s.pos))) }) s :=
  andThen_cap i _ K s

/-- A star over a class eats a whole run `w` of the class when the continuation
fails on every text that starts inside the class and the run ends the class. -/
theorem andThen_star_cls_run (g : Bool) (p : Char → Bool) (K : MState → List MState)
    (w t : List Char) (pos : Nat) (caps : Nat → Option (List Char))
    (hw : ∀ c ∈ w, p c = true) (ht : ∀ c ∈ t.head?, p c = false)
    (hK : ∀ c t' pos', p c = true → K ⟨pos', c :: t', caps⟩ = []) :
    andThen (.star g (.cls p)) K ⟨pos, w ++ t, caps⟩ = K ⟨pos + w.length, t, caps⟩ := by
  rw [andThen_star_cls_append g p K w t caps hw hK, andThen_star_cls_stop _ _ _ _ _ _ ht]

/-- A star over a class fails on `w ++ t` when the continuation fails at every
position inside `w` and the star fails from `t` on. -/
theorem andThen_star_cls_fail (g : Bool) (p : Char → Bool) (K : MState → List MState)
    (w t : List Char) (caps : Nat → Option (List Char))
    (hKw : ∀ c ∈ w, ∀ t' pos', K ⟨pos', c :: t', caps⟩ = [])
    (hKt : ∀ pos', andThen (.star g (.cls p)) K ⟨pos', t, caps⟩ = []) :
    ∀ pos, andThen (.star g (.cls p)) K ⟨pos, w ++ t, caps⟩ = [] := by
  induction w with
  | nil => intro pos; simpa using hKt pos
  | cons c w ih =>
    intro pos
    have hc := hKw c (by simp) (w ++ t) pos
    have ih' := ih (fun x hx => hKw x (by simp [hx])) (pos + 1)
    rw [List.cons_append, andThen_star_cls_cons, ih', hc]
    cases g <;> simp

theorem andThen_cap_plus_cls_cons (i : Nat) (p : Char → Bool) (K : MState → List MState)
    (c : Char) (w t : List Char) (pos : Nat) (caps : Nat → Option (List Char))
    (hc : p c = true) (hw : ∀ x ∈ w, p x = true) (ht : ∀ x ∈ t.head?, p x = false)
    (hK : ∀ x t' pos' caps', p x = true → K ⟨pos', x :: t', caps'⟩ = []) :
    andThen (.cap i (Regex.plus (.cls p))) K ⟨pos, c :: (w ++ t), caps⟩ =
      K ⟨pos + (c :: w).length, t, Function.update caps i (some (c :: w))⟩ := by
  rw [← List.cons_append]
  exact andThen_cap_plus_cls i p K (c :: w) t pos caps (by simp)
    (by intro x hx; rcases List.mem_cons.mp hx with rfl | hx; exacts [hc, hw x hx]) ht hK

theorem stripLit_eq_some_iff (l x r : List Char) : stripLit l x = some r ↔ x = l ++ r := by
  induction l generalizing x with
  | nil => simp [stripLit, eq_comm]
  | cons c l ih =>
    cases x with
    | nil => simp [stripLit]
    | cons d x =>
      simp only [stripLit, List.cons_append, List.cons.injEq]
      by_cases h : c = d
      · simp [h, ih]
      · simp [h, Ne.symm h]

theorem append_space_unique (p : Char → Bool) :
    ∀ (a b : List Char) (c d : Char) (s t : List Char),
      (∀ x ∈ a, p x = false) → (∀ x ∈ b, p x = false) → p c = true → p d = true →
      a ++ c :: s = b ++ d :: t → a = b ∧ s = t := by
  intro a
  induction a with
  | nil =>
    intro b c d s t _ hb hc _ h
    cases b with
    | nil => simp at h; exact ⟨rfl, h.2⟩
    | cons y b =>
      simp at h
      have := hb y (by simp)
      rw [← h.1, hc] at this
      exact absurd this (by simp)
  | cons x a ih =>
    intro b c d s t ha hb hc hd h
    cases b with
    | nil =>
      simp at h
      have := ha x (by simp)
      rw [h.1, hd] at this
      exact absurd this (by simp)
    | cons y b =>
      simp only [List.cons_append, List.cons.injEq] at h
      obtain ⟨rfl, h⟩ := h
      obtain ⟨rfl, rfl⟩ := ih b c d s t (fun z hz => ha z (by simp [hz]))
        (fun z hz => hb z (by simp [hz])) hc hd h
      exact ⟨rfl, rfl⟩

/-- A space-free literal followed by `\s` against a space-free word `T` followed
by a blank matches exactly when the word is the literal. -/
theorem andThen_lit_space (l T t : List Char) (K : MState → List MState) (pos : Nat)
    (caps : Nat → Option (List Char))
    (hl : ∀ c ∈ l, isPerlSpace c = false) (hT : ∀ c ∈ T, isPerlSpace c = false) :
    andThen (.lit l) (andThen (.cls isPerlSpace) K) ⟨pos, T ++ ' ' :: t, caps⟩ =
      if l = T then K ⟨pos + l.length + 1, t, caps⟩ else [] := by
  rw [andThen_lit]
  cases h : stripLit l (T ++ ' ' :: t) with
  | none =>
    have hne : l ≠ T := by
      rintro rfl
      have := (stripLit_eq_some_iff l (l ++ ' ' :: t) (' ' :: t)).mpr rfl
      rw [h] at this
      exact absurd this (by simp)
    simp [hne]
  | some r =>
    have hr := (stripLit_eq_some_iff _ _ _).mp h
    cases r with
    | nil =>
      exfalso
      have hm : ' ' ∈ l := by
        have : ' ' ∈ T ++ ' ' :: t := by simp
        rw [hr] at this
        simpa using this
      have := hl _ hm
      exact absurd this (by decide)
    | cons d r =>
      simp only
      rw [andThen_cls_cons]
      by_cases hd : isPerlSpace d = true
      · obtain ⟨rfl, rfl⟩ := append_space_unique isPerlSpace T l ' ' d t r hT hl (by decide) hd hr
        simp [hd]
      · have hne : l ≠ T := by
          rintro rfl
          have := List.append_cancel_left hr
          simp only [List.cons.injEq] at this
          rw [← this.1] at hd
          exact hd (by decide)
        simp [hd, hne]

theorem andThen_lit_nil (K : MState → List MState) (pos : Nat) (rest : List Char)
    (caps : Nat → Option (List Char)) :
    andThen (.lit []) K ⟨pos, rest, caps⟩ = K ⟨pos, rest, caps⟩ := by
  simp [andThen_lit, stripLit]

theorem andThen_lit_end (c : Char) (l : List Char) (K : MState → List MState) (pos : Nat)
    (caps : Nat → Option (List Char)) :
    andThen (.lit (c :: l)) K ⟨pos, [], caps⟩ = [] := by
  simp [andThen_lit, stripLit]

theorem andThen_lit_cons (c d : Char) (l t : List Char) (K : MState → List MState) (pos : Nat)
    (caps : Nat → Option (List Char)) :
    andThen (.lit (c :: l)) K ⟨pos, d :: t, caps⟩ =
      if c = d then
        andThen (.lit l) (fun m => K ⟨m.pos + 1, m.rest, m.caps⟩) ⟨pos, t, caps⟩
      else [] := by
  simp only [andThen_lit, stripLit, List.length_cons]
  by_cases h : c = d
  · simp only [h, if_true]
    cases stripLit l t with
    | none => rfl
    | some r => simp [Nat.add_assoc]
  · simp [h]

/-! ## The patterns on declaration lines -/

theorem lastSub_eq (re : Regex) (s : List Char) :
    lastSub re s = ((andThen re (fun m => [m]) ⟨0, s, fun _ => none⟩).head?).map
      (fun m => (m.caps re.NumSubexp).getD []) := by
  unfold lastSub matchAt
  rw [← run_eq_andThen, List.drop_zero]

theorem patGo_num : patGo.NumSubexp = 2 := by decide
theorem patPython_num : patPython.NumSubexp = 1 := by decide
theorem patJsFunction_num : patJsFunction.NumSubexp = 1 := by decide
theorem patJsArrow_num : patJsArrow.NumSubexp = 1 := by decide
theorem patJsAssign_num : patJsAssign.NumSubexp = 1 := by decide
theorem patPhp_num : patPhp.NumSubexp = 2 := by decide
theorem patJava_num : patJava.NumSubexp = 3 := by decide

theorem head?_lparen_word (R : List Char) :
    ∀ x ∈ ('(' :: R).head?, isWordChar x = false := by
  intro x hx
  simp only [List.head?_cons, Option.mem_def, Option.some.injEq] at hx
  subst hx
  decide

theorem patGo_func (name R : List Char) (hne : name ≠ [])
    (hw : ∀ c ∈ name, isWordChar c = true) :
    lastSub patGo ('f' :: 'u' :: 'n' :: 'c' :: ' ' :: (name ++ '(' :: R)) = some name := by
  obtain ⟨n0, name', rfl⟩ := List.exists_cons_of_ne_nil hne
  have h0 : isWordChar n0 = true := hw n0 (by simp)
  have hw' : ∀ c ∈ name', isWordChar c = true := fun c hc => hw c (by simp [hc])
  have h0s := isPerlSpace_of_word h0
  have h0p := lparen_ne_of_word h0
  rw [lastSub_eq, patGo_num]
  simp only [reduceIte, Char.reduceEq, Bool.false_eq_true, class_table, Regex.seq, str, ws, word,
    andThen_cat, andThen_alt, andThen_empty, andThen_quest, andThen_beginText, andThen_lit_cons,
    andThen_lit_nil, andThen_lit_end, andThen_plus, andThen_cls_cons, andThen_cls_nil,
    andThen_star_cls_cons, andThen_star_cls_nil, andThen_cap_cat, andThen_cap_alt,
    List.cons_append, List.nil_append, List.append_nil, List.head?_nil, List.head?_cons,
    Option.map_none', Option.map_some', Function.update_same, Option.getD_some, patGo, h0s, h0p, h0]
  rw [andThen_cap_plus_cls_cons _ _ _ _ _ _ _ _ h0 hw' (head?_lparen_word R)]
  · simp only [reduceIte, Char.reduceEq, Bool.false_eq_true, class_table, Regex.seq, str, ws, word,
    andThen_cat, andThen_alt, andThen_empty, andThen_quest, andThen_beginText, andThen_lit_cons,
    andThen_lit_nil, andThen_lit_end, andThen_plus, andThen_cls_cons, andThen_cls_nil,
    andThen_star_cls_cons, andThen_star_cls_nil, andThen_cap_cat, andThen_cap_alt,
    List.cons_append, List.nil_append, List.append_nil, List.head?_nil, List.head?_cons,
    Option.map_none', Option.map_some', Function.update_same, Option.getD_some]
  · intro x t' pos' caps' hx
    have hxs := isPerlSpace_of_word hx
    have hxp := lparen_ne_of_word hx
    simp only [reduceIte, Char.reduceEq, Bool.false_eq_true, class_table, Regex.seq, str, ws, word,
    andThen_cat, andThen_alt, andThen_empty, andThen_quest, andThen_beginText, andThen_lit_cons,
    andThen_lit_nil, andThen_lit_end, andThen_plus, andThen_cls_cons, andThen_cls_nil,
    andThen_star_cls_cons, andThen_star_cls_nil, andThen_cap_cat, andThen_cap_alt,
    List.cons_append, List.nil_append, List.append_nil, List.head?_nil, List.head?_cons,
    Option.map_none', Option.map_some', Function.update_same, Option.getD_some, hxs, hxp]

theorem patGo_none_head (c : Char) (t : List Char) (hs : isPerlSpace c = false)
    (hf : ¬ ('f' = c)) : lastSub patGo (c :: t) = none := by
  rw [lastSub_eq]
  simp only [reduceIte, Char.reduceEq, Bool.false_eq_true, class_table, Regex.seq, str, ws, word,
    andThen_cat, andThen_alt, andThen_empty, andThen_quest, andThen_beginText, andThen_lit_cons,
    andThen_lit_nil, andThen_lit_end, andThen_plus, andThen_cls_cons, andThen_cls_nil,
    andThen_star_cls_cons, andThen_star_cls_nil, andThen_cap_cat, andThen_cap_alt,
    List.cons_append, List.nil_append, List.append_nil, List.head?_nil, List.head?_cons,
    Option.map_none', Option.map_some', Function.update_same, Option.getD_some, patGo, hs, hf]

theorem patPython_none_head (c : Char) (t : List Char) (hs : isPerlSpace c = false)
    (hf : ¬ ('d' = c)) : lastSub patPython (c :: t) = none := by
  rw [lastSub_eq]
  simp only [reduceIte, Char.reduceEq, Bool.false_eq_true, class_table, Regex.seq, str, ws, word,
    andThen_cat, andThen_alt, andThen_empty, andThen_quest, andThen_beginText, andThen_lit_cons,
    andThen_lit_nil, andThen_lit_end, andThen_plus, andThen_cls_cons, andThen_cls_nil,
    andThen_star_cls_cons, andThen_star_cls_nil, andThen_cap_cat, andThen_cap_alt,
    List.cons_append, List.nil_append, List.append_nil, List.head?_nil, List.head?_cons,
    Option.map_none', Option.map_some', Function.update_same, Option.getD_some, patPython, hs, hf]

theorem patJsFunction_none_head (c : Char) (t : List Char) (hs : isPerlSpace c = false)
    (hf : ¬ ('f' = c)) : lastSub patJsFunction (c :: t) = none := by
  rw [lastSub_eq]
  simp only [reduceIte, Char.reduceEq, Bool.false_eq_true, class_table, Regex.seq, str, ws, word,
    andThen_cat, andThen_alt, andThen_empty, andThen_quest, andThen_beginText, andThen_lit_cons,
    andThen_lit_nil, andThen_lit_end, andThen_plus, andThen_cls_cons, andThen_cls_nil,
    andThen_star_cls_cons, andThen_star_cls_nil, andThen_cap_cat, andThen_cap_alt,
    List.cons_append, List.nil_append, List.append_nil, List.head?_nil, List.head?_cons,
    Option.map_none', Option.map_some', Function.update_same, Option.getD_some, patJsFunction, hs, hf]

theorem patJsArrow_none_head (c : Char) (t : List Char) (hs : isPerlSpace c = false)
    (hc : ¬ ('c' = c)) (hl : ¬ ('l' = c)) (hv : ¬ ('v' = c)) :
    lastSub patJsArrow (c :: t) = none := by
  rw [lastSub_eq]
  simp only [reduceIte, Char.reduceEq, Bool.false_eq_true, class_table, Regex.seq, str, ws, word,
    andThen_cat, andThen_alt, andThen_empty, andThen_quest, andThen_beginText, andThen_lit_cons,
    andThen_lit_nil, andThen_lit_end, andThen_plus, andThen_cls_cons, andThen_cls_nil,
    andThen_star_cls_cons, andThen_star_cls_nil, andThen_cap_cat, andThen_cap_alt,
    List.cons_append, List.nil_append, List.append_nil, List.head?_nil, List.head?_cons,
    Option.map_none', Option.map_some', Function.update_same, Option.getD_some, patJsArrow, hs, hc, hl, hv]

theorem patGo_none_fn (t : List Char) : lastSub patGo ('f' :: 'n' :: t) = none := by
  rw [lastSub_eq]
  simp only [reduceIte, Char.reduceEq, Bool.false_eq_true, class_table, Regex.seq, str, ws, word,
    andThen_cat, andThen_alt, andThen_empty, andThen_quest, andThen_beginText, andThen_lit_cons,
    andThen_lit_nil, andThen_lit_end, andThen_plus, andThen_cls_cons, andThen_cls_nil,
    andThen_star_cls_cons, andThen_star_cls_nil, andThen_cap_cat, andThen_cap_alt,
    List.cons_append, List.nil_append, List.append_nil, List.head?_nil, List.head?_cons,
    Option.map_none', Option.map_some', Function.update_same, Option.getD_some, patGo]

theorem patGo_none_function (t : List Char) :
    lastSub patGo ('f' :: 'u' :: 'n' :: 'c' :: 't' :: t) = none := by
  rw [lastSub_eq]
  simp only [reduceIte, Char.reduceEq, Bool.false_eq_true, class_table, Regex.seq, str, ws, word,
    andThen_cat, andThen_alt, andThen_empty, andThen_quest, andThen_beginText, andThen_lit_cons,
    andThen_lit_nil, andThen_lit_end, andThen_plus, andThen_cls_cons, andThen_cls_nil,
    andThen_star_cls_cons, andThen_star_cls_nil, andThen_cap_cat, andThen_cap_alt,
    List.cons_append, List.nil_append, List.append_nil, List.head?_nil, List.head?_cons,
    Option.map_none', Option.map_some', Function.update_same, Option.getD_some, patGo]

theorem patJsFunction_none_fn (t : List Char) :
    lastSub patJsFunction ('f' :: 'n' :: t) = none := by
  rw [lastSub_eq]
  simp only [reduceIte, Char.reduceEq, Bool.false_eq_true, class_table, Regex.seq, str, ws, word,
    andThen_cat, andThen_alt, andThen_empty, andThen_quest, andThen_beginText, andThen_lit_cons,
    andThen_lit_nil, andThen_lit_end, andThen_plus, andThen_cls_cons, andThen_cls_nil,
    andThen_star_cls_cons, andThen_star_cls_nil, andThen_cap_cat, andThen_cap_alt,
    List.cons_append, List.nil_append, List.append_nil, List.head?_nil, List.head?_cons,
    Option.map_none', Option.map_some', Function.update_same, Option.getD_some, patJsFunction]

theorem patPhp_none_fn (t : List Char) : lastSub patPhp ('f' :: 'n' :: t) = none := by
  rw [lastSub_eq]
  simp only [reduceIte, Char.reduceEq, Bool.false_eq_true, class_table, Regex.seq, str, ws, word,
    andThen_cat, andThen_alt, andThen_empty, andThen_quest, andThen_beginText, andThen_lit_cons,
    andThen_lit_nil, andThen_lit_end, andThen_plus, andThen_cls_cons, andThen_cls_nil,
    andThen_star_cls_cons, andThen_star_cls_nil, andThen_cap_cat, andThen_cap_alt,
    List.cons_append, List.nil_append, List.append_nil, List.head?_nil, List.head?_cons,
    Option.map_none', Option.map_some', Function.update_same, Option.getD_some, patPhp]

/-- The tail `\s*\(` of a declaration pattern fails on a text that starts with a
word character. -/
theorem tail_fails_on_word (K : MState → List MState) (x : Char) (t' : List Char) (pos' : Nat)
    (caps' : Nat → Option (List Char)) (hx : isWordChar x = true) :
    andThen (.cat (.star true (.cls isPerlSpace)) (.lit ['('])) K ⟨pos', x :: t', caps'⟩ =
      [] := by
  have hxs := isPerlSpace_of_word hx
  have hxp := lparen_ne_of_word hx
  simp only [reduceIte, Char.reduceEq, Bool.false_eq_true, class_table, Regex.seq, str, ws, word,
    andThen_cat, andThen_alt, andThen_empty, andThen_quest, andThen_beginText, andThen_lit_cons,
    andThen_lit_nil, andThen_lit_end, andThen_plus, andThen_cls_cons, andThen_cls_nil,
    andThen_star_cls_cons, andThen_star_cls_nil, andThen_cap_cat, andThen_cap_alt,
    List.cons_append, List.nil_append, List.append_nil, List.head?_nil, List.head?_cons,
    Option.map_none', Option.map_some', Function.update_same, Option.getD_some, hxs, hxp]

theorem patPython_def (name R : List Char) (hne : name ≠ [])
    (hw : ∀ c ∈ name, isWordChar c = true) :
    lastSub patPython ('d' :: 'e' :: 'f' :: ' ' :: (name ++ '(' :: R)) = some name := by
  obtain ⟨n0, name', rfl⟩ := List.exists_cons_of_ne_nil hne
  have h0 : isWordChar n0 = true := hw n0 (by simp)
  have hw' : ∀ c ∈ name', isWordChar c = true := fun c hc => hw c (by simp [hc])
  have h0s := isPerlSpace_of_word h0
  rw [lastSub_eq, patPython_num]
  simp only [reduceIte, Char.reduceEq, Bool.false_eq_true, class_table, Regex.seq, str, ws, word,
    andThen_cat, andThen_alt, andThen_empty, andThen_quest, andThen_beginText, andThen_lit_cons,
    andThen_lit_nil, andThen_lit_end, andThen_plus, andThen_cls_cons, andThen_cls_nil,
    andThen_star_cls_cons, andThen_star_cls_nil, andThen_cap_cat, andThen_cap_alt,
    List.cons_append, List.nil_append, List.append_nil, List.head?_nil, List.head?_cons,
    Option.map_none', Option.map_some', Function.update_same, Option.getD_some, patPython, h0s, h0]
  rw [andThen_cap_plus_cls_cons _ _ _ _ _ _ _ _ h0 hw' (head?_lparen_word R)
    (fun x t' pos' caps' hx => tail_fails_on_word _ x t' pos' caps' hx)]
  simp only [reduceIte, Char.reduceEq, Bool.false_eq_true, class_table, Regex.seq, str, ws, word,
    andThen_cat, andThen_alt, andThen_empty, andThen_quest, andThen_beginText, andThen_lit_cons,
    andThen_lit_nil, andThen_lit_end, andThen_plus, andThen_cls_cons, andThen_cls_nil,
    andThen_star_cls_cons, andThen_star_cls_nil, andThen_cap_cat, andThen_cap_alt,
    List.cons_append, List.nil_append, List.append_nil, List.head?_nil, List.head?_cons,
    Option.map_none', Option.map_some', Function.update_same, Option.getD_some]

theorem patJsFunction_function (name R : List Char) (hne : name ≠ [])
    (hw : ∀ c ∈ name, isWordChar c = true) :
    lastSub patJsFunction
      ('f' :: 'u' :: 'n' :: 'c' :: 't' :: 'i' :: 'o' :: 'n' :: ' ' :: (name ++ '(' :: R)) =
      some name := by
  obtain ⟨n0, name', rfl⟩ := List.exists_cons_of_ne_nil hne
  have h0 : isWordChar n0 = true := hw n0 (by simp)
  have hw' : ∀ c ∈ name', isWordChar c = true := fun c hc => hw c (by simp [hc])
  have h0s := isPerlSpace_of_word h0
  rw [lastSub_eq, patJsFunction_num]
  simp only [reduceIte, Char.reduceEq, Bool.false_eq_true, class_table, Regex.seq, str, ws, word,
    andThen_cat, andThen_alt, andThen_empty, andThen_quest, andThen_beginText, andThen_lit_cons,
    andThen_lit_nil, andThen_lit_end, andThen_plus, andThen_cls_cons, andThen_cls_nil,
    andThen_star_cls_cons, andThen_star_cls_nil, andThen_cap_cat, andThen_cap_alt,
    List.cons_append, List.nil_append, List.append_nil, List.head?_nil, List.head?_cons,
    Option.map_none', Option.map_some', Function.update_same, Option.getD_some, patJsFunction, h0s, h0]
  rw [andThen_cap_plus_cls_cons _ _ _ _ _ _ _ _ h0 hw' (head?_lparen_word R)
    (fun x t' pos' caps' hx => tail_fails_on_word _ x t' pos' caps' hx)]
  simp only [reduceIte, Char.reduceEq, Bool.false_eq_true, class_table, Regex.seq, str, ws, word,
    andThen_cat, andThen_alt, andThen_empty, andThen_quest, andThen_beginText, andThen_lit_cons,
    andThen_lit_nil, andThen_lit_end, andThen_plus, andThen_cls_cons, andThen_cls_nil,
    andThen_star_cls_cons, andThen_star_cls_nil, andThen_cap_cat, andThen_cap_alt,
    List.cons_append, List.nil_append, List.append_nil, List.head?_nil, List.head?_cons,
    Option.map_none', Option.map_some', Function.update_same, Option.getD_some]

theorem head?_blank_word (X : List Char) :
    ∀ x ∈ (' ' :: X).head?, isWordChar x = false := by
  intro x hx
  simp only [List.head?_cons, Option.mem_def, Option.some.injEq] at hx
  subst hx
  decide

/-- The assignment pattern `^\s*(\w+)\s*=...` fails on a word, a blank and a
character that is neither white space nor an equals sign. -/
theorem patJsAssign_none (w X : List Char) (x0 : Char) (hne : w ≠ [])
    (hw : ∀ c ∈ w, isWordChar c = true)
    (hxs : isPerlSpace x0 = false) (hxe : ¬ ('=' = x0)) :
    lastSub patJsAssign (w ++ ' ' :: x0 :: X) = none := by
  rw [lastSub_eq]
  obtain ⟨c, w, rfl⟩ := List.exists_cons_of_ne_nil hne
  have hc : isWordChar c = true := hw c (by simp)
  have hw' : ∀ x ∈ w, isWordChar x = true := fun x hx => hw x (by simp [hx])
  have hcs := isPerlSpace_of_word hc
  simp only [reduceIte, Char.reduceEq, Bool.false_eq_true, class_table, Regex.seq, str, ws, word,
    andThen_cat, andThen_alt, andThen_empty, andThen_quest, andThen_beginText, andThen_lit_cons,
    andThen_lit_nil, andThen_lit_end, andThen_plus, andThen_cls_cons, andThen_cls_nil,
    andThen_star_cls_cons, andThen_star_cls_nil, andThen_cap_cat, andThen_cap_alt,
    List.cons_append, List.nil_append, List.append_nil, List.head?_nil, List.head?_cons,
    Option.map_none', Option.map_some', Function.update_same, Option.getD_some, patJsAssign, hcs]
  rw [andThen_cap_plus_cls_cons _ _ _ _ _ _ _ _ hc hw' (head?_blank_word _)]
  · simp only [reduceIte, Char.reduceEq, Bool.false_eq_true, class_table, Regex.seq, str, ws, word,
    andThen_cat, andThen_alt, andThen_empty, andThen_quest, andThen_beginText, andThen_lit_cons,
    andThen_lit_nil, andThen_lit_end, andThen_plus, andThen_cls_cons, andThen_cls_nil,
    andThen_star_cls_cons, andThen_star_cls_nil, andThen_cap_cat, andThen_cap_alt,
    List.cons_append, List.nil_append, List.append_nil, List.head?_nil, List.head?_cons,
    Option.map_none', Option.map_some', Function.update_same, Option.getD_some, hxs, hxe]
  · intro x t' pos' caps' hx
    have hxs' := isPerlSpace_of_word hx
    have hxe' := equals_ne_of_word hx
    simp only [reduceIte, Char.reduceEq, Bool.false_eq_true, class_table, Regex.seq, str, ws, word,
    andThen_cat, andThen_alt, andThen_empty, andThen_quest, andThen_beginText, andThen_lit_cons,
    andThen_lit_nil, andThen_lit_end, andThen_plus, andThen_cls_cons, andThen_cls_nil,
    andThen_star_cls_cons, andThen_star_cls_nil, andThen_cap_cat, andThen_cap_alt,
    List.cons_append, List.nil_append, List.append_nil, List.head?_nil, List.head?_cons,
    Option.map_none', Option.map_some', Function.update_same, Option.getD_some, hxs', hxe']

theorem head?_append_of_ne_nil (p : Char → Bool) (T t : List Char) (hne : T ≠ [])
    (hT : ∀ c ∈ T, p c = false) : ∀ x ∈ (T ++ t).head?, p x = false := by
  obtain ⟨c, T', rfl⟩ := List.exists_cons_of_ne_nil hne
  intro x hx
  simp only [List.cons_append, List.head?_cons, Option.mem_def, Option.some.injEq] at hx
  subst hx
  exact hT _ (by simp)

/-- One or more characters of a class, on a run `w` of the class that the
continuation cannot enter, consume the whole run. -/
theorem andThen_plus_cls_run (p : Char → Bool) (K : MState → List MState)
    (w t : List Char) (pos : Nat) (caps : Nat → Option (List Char))
    (hne : w ≠ []) (hw : ∀ c ∈ w, p c = true) (ht : ∀ c ∈ t.head?, p c = false)
    (hK : ∀ c t' pos', p c = true → K ⟨pos', c :: t', caps⟩ = []) :
    andThen (.cls p) (andThen (.star true (.cls p)) K) ⟨pos, w ++ t, caps⟩ =
      K ⟨pos + w.length, t, caps⟩ := by
  obtain ⟨c, w, rfl⟩ := List.exists_cons_of_ne_nil hne
  have hc : p c = true := hw c (by simp)
  rw [List.cons_append, andThen_cls_cons, if_pos hc,
    andThen_star_cls_run true p K w t _ caps (fun x hx => hw x (by simp [hx])) ht hK]
  have e : pos + 1 + w.length = pos + (c :: w).length := by simp; omega
  rw [e]

/-- The group `(\w+)` followed by `\s*\(` fails on a run of type characters, a
blank and a character that is neither white space nor a parenthesis. -/
theorem cap_word_tail_fail (i : Nat) (K : MState → List MState) (pos : Nat)
    (caps : Nat → Option (List Char)) (rest U Y : List Char) (y0 : Char)
    (hrest : rest = U ++ ' ' :: y0 :: Y) (hU : ∀ c ∈ U, isTypeChar c = true)
    (hys : isPerlSpace y0 = false) (hyp : ¬ ('(' = y0)) :
    andThen (.cap i (Regex.plus (.cls isWordChar)))
      (andThen (.cat (.star true (.cls isPerlSpace)) (.lit ['('])) K) ⟨pos, rest, caps⟩ = [] := by
  subst hrest
  rw [andThen_cap, andThen_plus]
  cases U with
  | nil =>
    simp only [reduceIte, Char.reduceEq, Bool.false_eq_true, class_table, Regex.seq, str, ws, word,
    andThen_cat, andThen_alt, andThen_empty, andThen_quest, andThen_beginText, andThen_lit_cons,
    andThen_lit_nil, andThen_lit_end, andThen_plus, andThen_cls_cons, andThen_cls_nil,
    andThen_star_cls_cons, andThen_star_cls_nil, andThen_cap_cat, andThen_cap_alt,
    List.cons_append, List.nil_append, List.append_nil, List.head?_nil, List.head?_cons,
    Option.map_none', Option.map_some', Function.update_same, Option.getD_some]
  | cons u U =>
    rw [List.cons_append, andThen_cls_cons]
    split
    · apply andThen_star_cls_fail
      · intro c hc t' pos'
        have hct : isTypeChar c = true := hU c (by simp [hc])
        have h1 := isPerlSpace_of_type hct
        have h2 := lparen_ne_of_type hct
        simp only [reduceIte, Char.reduceEq, Bool.false_eq_true, class_table, Regex.seq, str, ws, word,
    andThen_cat, andThen_alt, andThen_empty, andThen_quest, andThen_beginText, andThen_lit_cons,
    andThen_lit_nil, andThen_lit_end, andThen_plus, andThen_cls_cons, andThen_cls_nil,
    andThen_star_cls_cons, andThen_star_cls_nil, andThen_cap_cat, andThen_cap_alt,
    List.cons_append, List.nil_append, List.append_nil, List.head?_nil, List.head?_cons,
    Option.map_none', Option.map_some', Function.update_same, Option.getD_some, h1, h2]
      · intro pos'
        simp only [reduceIte, Char.reduceEq, Bool.false_eq_true, class_table, Regex.seq, str, ws, word,
    andThen_cat, andThen_alt, andThen_empty, andThen_quest, andThen_beginText, andThen_lit_cons,
    andThen_lit_nil, andThen_lit_end, andThen_plus, andThen_cls_cons, andThen_cls_nil,
    andThen_star_cls_cons, andThen_star_cls_nil, andThen_cap_cat, andThen_cap_alt,
    List.cons_append, List.nil_append, List.append_nil, List.head?_nil, List.head?_cons,
    Option.map_none', Option.map_some', Function.update_same, Option.getD_some, hys, hyp]
    · rfl

/-- A continuation that starts with `\s+` fails on a type character. -/
theorem plus_ws_fails_on_type (b : Regex) (K : MState → List MState) (c : Char)
    (t' : List Char) (pos' : Nat) (caps : Nat → Option (List Char))
    (hc : isTypeChar c = true) :
    andThen (.cat (Regex.plus (.cls isPerlSpace)) b) K ⟨pos', c :: t', caps⟩ = [] := by
  have h1 := isPerlSpace_of_type hc
  simp only [reduceIte, Char.reduceEq, Bool.false_eq_true, class_table, Regex.seq, str, ws, word,
    andThen_cat, andThen_alt, andThen_empty, andThen_quest, andThen_beginText, andThen_lit_cons,
    andThen_lit_nil, andThen_lit_end, andThen_plus, andThen_cls_cons, andThen_cls_nil,
    andThen_star_cls_cons, andThen_star_cls_nil, andThen_cap_cat, andThen_cap_alt,
    List.cons_append, List.nil_append, List.append_nil, List.head?_nil, List.head?_cons,
    Option.map_none', Option.map_some', Function.update_same, Option.getD_some, h1]

theorem patJava_fn (name R : List Char) (hne : name ≠ [])
    (hw : ∀ c ∈ name, isWordChar c = true) :
    lastSub patJava ('f' :: 'n' :: ' ' :: (name ++ '(' :: R)) = some name := by
  obtain ⟨n0, name', rfl⟩ := List.exists_cons_of_ne_nil hne
  have h0 : isWordChar n0 = true := hw n0 (by simp)
  have hw' : ∀ c ∈ name', isWordChar c = true := fun c hc => hw c (by simp [hc])
  have h0s := isPerlSpace_of_word h0
  rw [lastSub_eq, patJava_num]
  simp only [reduceIte, Char.reduceEq, Bool.false_eq_true, class_table, Regex.seq, str, ws, word,
    andThen_cat, andThen_alt, andThen_empty, andThen_quest, andThen_beginText, andThen_lit_cons,
    andThen_lit_nil, andThen_lit_end, andThen_plus, andThen_cls_cons, andThen_cls_nil,
    andThen_star_cls_cons, andThen_star_cls_nil, andThen_cap_cat, andThen_cap_alt,
    List.cons_append, List.nil_append, List.append_nil, List.head?_nil, List.head?_cons,
    Option.map_none', Option.map_some', Function.update_same, Option.getD_some, patJava, h0s, h0]
  rw [andThen_cap_plus_cls_cons _ _ _ _ _ _ _ _ h0 hw' (head?_lparen_word R)
    (fun x t' pos' caps' hx => tail_fails_on_word _ x t' pos' caps' hx)]
  simp only [reduceIte, Char.reduceEq, Bool.false_eq_true, class_table, Regex.seq, str, ws, word,
    andThen_cat, andThen_alt, andThen_empty, andThen_quest, andThen_beginText, andThen_lit_cons,
    andThen_lit_nil, andThen_lit_end, andThen_plus, andThen_cls_cons, andThen_cls_nil,
    andThen_star_cls_cons, andThen_star_cls_nil, andThen_cap_cat, andThen_cap_alt,
    List.cons_append, List.nil_append, List.append_nil, List.head?_nil, List.head?_cons,
    Option.map_none', Option.map_some', Function.update_same, Option.getD_some]

/-! ## Modifier prefixes and the tails of the PHP and Java patterns -/

theorem andThen_seq_cons (a : Regex) (l : List Regex) (K : MState → List MState) :
    andThen (Regex.seq (a :: l)) K = andThen a (andThen (Regex.seq l) K) := by
  funext s
  cases l with
  | nil =>
    have : andThen (Regex.seq []) K = K := by
      funext x; simp [Regex.seq, andThen_empty]
    rw [this]; rfl
  | cons b l => simp only [Regex.seq, andThen_cat]

theorem andThen_seq_append (l₁ l₂ : List Regex) (K : MState → List MState) :
    andThen (Regex.seq (l₁ ++ l₂)) K = andThen (Regex.seq l₁) (andThen (Regex.seq l₂) K) := by
  induction l₁ with
  | nil =>
    funext s
    simp [Regex.seq, andThen_empty]
  | cons a l₁ ih =>
    rw [List.cons_append, andThen_seq_cons, andThen_seq_cons, ih]

/-- The visibility keywords of the PHP and Java patterns. -/
theorem vis_cases {v : String} (hv : v ∈ ["public", "private", "protected"]) :
    v = "public" ∨ v = "private" ∨ v = "protected" := by
  simpa using hv

/-- The prefix `^\s*(public|private|protected)?\s*` on a visibility keyword, a
blank and a text `X` that does not start with white space: the continuation
runs after the blank, before the blank, and at the start of the line. -/
theorem vis_lead (v : String) (hv : v ∈ ["public", "private", "protected"]) (X : List Char)
    (hX : ∀ c ∈ X.head?, isPerlSpace c = false) (K : MState → List MState)
    (caps : Nat → Option (List Char)) :
    ∃ s₁ s₂ : MState, s₁.rest = X ∧ s₂.rest = ' ' :: X ∧
      andThen (Regex.seq [.beginText, .star true ws,
          Regex.quest (.cap 1 (.alt (str "public") (.alt (str "private") (str "protected")))),
          .star true ws]) K ⟨0, v.data ++ ' ' :: X, caps⟩ =
        K s₁ ++ K s₂ ++ K ⟨0, v.data ++ ' ' :: X, caps⟩ := by
  rcases vis_cases hv with rfl | rfl | rfl
  all_goals
    simp only [reduceIte, Char.reduceEq, Bool.false_eq_true, class_table, Regex.seq, str, ws, word,
    andThen_cat, andThen_alt, andThen_empty, andThen_quest, andThen_beginText, andThen_lit_cons,
    andThen_lit_nil, andThen_lit_end, andThen_plus, andThen_cls_cons, andThen_cls_nil,
    andThen_star_cls_cons, andThen_star_cls_nil, andThen_cap_cat, andThen_cap_alt,
    List.cons_append, List.nil_append, List.append_nil, List.head?_nil, List.head?_cons,
    Option.map_none', Option.map_some', Function.update_same, Option.getD_some]
    simp only [andThen_star_cls_stop _ _ _ _ _ _ hX]
    exact ⟨_, _, rfl, rfl, rfl⟩

theorem head?_blank_type (X : List Char) :
    ∀ x ∈ (' ' :: X).head?, isTypeChar x = false := by
  intro x hx
  simp only [List.head?_cons, Option.mem_def, Option.some.injEq] at hx
  subst hx
  decide

/-- The tail of the Java pattern on `static`, a type, a name and a parenthesis. -/
theorem javaRest_static (K : MState → List MState) (pos : Nat) (T name R : List Char)
    (caps : Nat → Option (List Char)) (hTne : T ≠ []) (hT : ∀ c ∈ T, isTypeChar c = true)
    (hne : name ≠ []) (hw : ∀ c ∈ name, isWordChar c = true) :
    ∃ s' : MState, s'.caps 3 = some name ∧
      andThen (Regex.seq [Regex.quest (.cap 2 (Regex.seq [str "static", Regex.plus ws])),
        Regex.plus (.cls isTypeChar), Regex.plus ws, .cap 3 (Regex.plus word), .star true ws,
        str "("]) K ⟨pos, "static ".data ++ (T ++ ' ' :: (name ++ '(' :: R)), caps⟩ = K s' := by
  obtain ⟨n0, name', rfl⟩ := List.exists_cons_of_ne_nil hne
  have h0 : isWordChar n0 = true := hw n0 (by simp)
  have hw' : ∀ c ∈ name', isWordChar c = true := fun c hc => hw c (by simp [hc])
  have h0s := isPerlSpace_of_word h0
  have h0p := lparen_ne_of_word h0
  have hTs : ∀ c ∈ (T ++ ' ' :: (n0 :: name' ++ '(' :: R)).head?, isPerlSpace c = false :=
    head?_append_of_ne_nil _ _ _ hTne (fun c hc => isPerlSpace_of_type (hT c hc))
  simp only [reduceIte, Char.reduceEq, Bool.false_eq_true, class_table, Regex.seq, str, ws, word,
    andThen_cat, andThen_alt, andThen_empty, andThen_quest, andThen_beginText, andThen_lit_cons,
    andThen_lit_nil, andThen_lit_end, andThen_plus, andThen_cls_cons, andThen_cls_nil,
    andThen_star_cls_cons, andThen_star_cls_nil, andThen_cap_cat, andThen_cap_alt,
    List.cons_append, List.nil_append, List.append_nil, List.head?_nil, List.head?_cons,
    Option.map_none', Option.map_some', Function.update_same, Option.getD_some, h0s, h0] at hTs ⊢
  simp only [andThen_star_cls_stop _ _ _ _ _ _ hTs]
  rw [andThen_plus_cls_run _ _ _ _ _ _ hTne hT (head?_blank_type _)
    (fun c t' pos' hc => plus_ws_fails_on_type _ _ c t' pos' _ hc)]
  simp only [reduceIte, Char.reduceEq, Bool.false_eq_true, class_table, Regex.seq, str, ws, word,
    andThen_cat, andThen_alt, andThen_empty, andThen_quest, andThen_beginText, andThen_lit_cons,
    andThen_lit_nil, andThen_lit_end, andThen_plus, andThen_cls_cons, andThen_cls_nil,
    andThen_star_cls_cons, andThen_star_cls_nil, andThen_cap_cat, andThen_cap_alt,
    List.cons_append, List.nil_append, List.append_nil, List.head?_nil, List.head?_cons,
    Option.map_none', Option.map_some', Function.update_same, Option.getD_some, h0s, h0]
  rw [cap_word_tail_fail _ _ _ _ _ T _ n0 rfl hT h0s h0p]
  rw [andThen_cap_plus_cls_cons _ _ _ _ _ _ _ _ h0 hw' (head?_lparen_word R)
    (fun x t' pos' caps' hx => tail_fails_on_word _ x t' pos' caps' hx)]
  simp only [reduceIte, Char.reduceEq, Bool.false_eq_true, class_table, Regex.seq, str, ws, word,
    andThen_cat, andThen_alt, andThen_empty, andThen_quest, andThen_beginText, andThen_lit_cons,
    andThen_lit_nil, andThen_lit_end, andThen_plus, andThen_cls_cons, andThen_cls_nil,
    andThen_star_cls_cons, andThen_star_cls_nil, andThen_cap_cat, andThen_cap_alt,
    List.cons_append, List.nil_append, List.append_nil, List.head?_nil, List.head?_cons,
    Option.map_none', Option.map_some', Function.update_same, Option.getD_some]
  exact ⟨_, by simp only [Function.update_same], rfl⟩

theorem andThen_lit_space_plus (l T t : List Char) (K : MState → List MState) (pos : Nat)
    (caps : Nat → Option (List Char))
    (hl : ∀ c ∈ l, isPerlSpace c = false) (hT : ∀ c ∈ T, isPerlSpace c = false) :
    andThen (.lit l) (andThen (Regex.plus (.cls isPerlSpace)) K) ⟨pos, T ++ ' ' :: t, caps⟩ =
      if l = T then andThen (.star true (.cls isPerlSpace)) K ⟨pos + l.length + 1, t, caps⟩
      else [] := by
  have h : andThen (Regex.plus (.cls isPerlSpace)) K =
      andThen (.cls isPerlSpace) (andThen (.star true (.cls isPerlSpace)) K) := by
    funext s; exact andThen_plus _ _ _
  rw [h, andThen_lit_space l T t _ pos caps hl hT]

theorem head?_lparen_type (R : List Char) :
    ∀ x ∈ ('(' :: R).head?, isTypeChar x = false := by
  intro x hx
  simp only [List.head?_cons, Option.mem_def, Option.some.injEq] at hx
  subst hx
  decide

theorem static_not_space : ∀ c ∈ "static".data, isPerlSpace c = false := by decide

theorem function_not_space : ∀ c ∈ "function".data, isPerlSpace c = false := by decide

/-- The tail of the Java pattern on a type, a name and a parenthesis. -/
theorem javaRest_type (K : MState → List MState) (pos : Nat) (T name R : List Char)
    (caps : Nat → Option (List Char)) (hTne : T ≠ []) (hT : ∀ c ∈ T, isTypeChar c = true)
    (hne : name ≠ []) (hw : ∀ c ∈ name, isWordChar c = true) :
    ∃ s' : MState, s'.caps 3 = some name ∧
      andThen (Regex.seq [Regex.quest (.cap 2 (Regex.seq [str "static", Regex.plus ws])),
        Regex.plus (.cls isTypeChar), Regex.plus ws, .cap 3 (Regex.plus word), .star true ws,
        str "("]) K ⟨pos, T ++ ' ' :: (name ++ '(' :: R), caps⟩ = K s' := by
  obtain ⟨n0, name', rfl⟩ := List.exists_cons_of_ne_nil hne
  have h0 : isWordChar n0 = true := hw n0 (by simp)
  have hw' : ∀ c ∈ name', isWordChar c = true := fun c hc => hw c (by simp [hc])
  have hwt : ∀ c ∈ name', isTypeChar c = true := fun c hc => isTypeChar_of_word (hw' c hc)
  have h0s := isPerlSpace_of_word h0
  have h0t := isTypeChar_of_word h0
  have hTs : ∀ c ∈ T, isPerlSpace c = false := fun c hc => isPerlSpace_of_type (hT c hc)
  simp only [reduceIte, Char.reduceEq, Bool.false_eq_true, class_table, Regex.seq, str, ws, word,
    andThen_cat, andThen_alt, andThen_empty, andThen_quest, andThen_beginText, andThen_lit_cons,
    andThen_lit_nil, andThen_lit_end, andThen_plus, andThen_cls_cons, andThen_cls_nil,
    andThen_star_cls_cons, andThen_star_cls_nil, andThen_cap_cat, andThen_cap_alt,
    List.cons_append, List.nil_append, List.append_nil, List.head?_nil, List.head?_cons,
    Option.map_none', Option.map_some', Function.update_same, Option.getD_some, h0s, h0]
  rw [andThen_lit_space_plus _ _ _ _ _ _ static_not_space hTs]
  rw [andThen_plus_cls_run _ _ _ _ _ _ hTne hT (head?_blank_type _)
    (fun c t' pos' hc => plus_ws_fails_on_type _ _ c t' pos' _ hc)]
  simp only [reduceIte, Char.reduceEq, Bool.false_eq_true, class_table, Regex.seq, str, ws, word,
    andThen_cat, andThen_alt, andThen_empty, andThen_quest, andThen_beginText, andThen_lit_cons,
    andThen_lit_nil, andThen_lit_end, andThen_plus, andThen_cls_cons, andThen_cls_nil,
    andThen_star_cls_cons, andThen_star_cls_nil, andThen_cap_cat, andThen_cap_alt,
    List.cons_append, List.nil_append, List.append_nil, List.head?_nil, List.head?_cons,
    Option.map_none', Option.map_some', Function.update_same, Option.getD_some, h0s, h0, h0t]
  rw [andThen_star_cls_run _ _ _ _ _ _ _ hwt (head?_lparen_type R)
    (fun c t' pos' hc => plus_ws_fails_on_type _ _ c t' pos' _ hc)]
  rw [andThen_cap_plus_cls_cons _ _ _ _ _ _ _ _ h0 hw' (head?_lparen_word R)
    (fun x t' pos' caps' hx => tail_fails_on_word _ x t' pos' caps' hx)]
  simp only [reduceIte, Char.reduceEq, Bool.false_eq_true, class_table, Regex.seq, str, ws, word,
    andThen_cat, andThen_alt, andThen_empty, andThen_quest, andThen_beginText, andThen_lit_cons,
    andThen_lit_nil, andThen_lit_end, andThen_plus, andThen_cls_cons, andThen_cls_nil,
    andThen_star_cls_cons, andThen_star_cls_nil, andThen_cap_cat, andThen_cap_alt,
    List.cons_append, List.nil_append, List.append_nil, List.head?_nil, List.head?_cons,
    Option.map_none', Option.map_some', Function.update_same, Option.getD_some, ite_self]
  exact ⟨_, by simp only [Function.update_same], rfl⟩

/-- The tail of the PHP pattern fails on a text that does not start with `f`. -/
theorem phpRest_head (K : MState → List MState) (pos : Nat) (c : Char) (t : List Char)
    (caps : Nat → Option (List Char)) (hc : ¬ ('f' = c)) :
    andThen (Regex.seq [str "function", Regex.plus ws, .cap 2 (Regex.plus word), .star true ws,
        str "("]) K ⟨pos, c :: t, caps⟩ = [] := by
  simp only [reduceIte, Char.reduceEq, Bool.false_eq_true, class_table, Regex.seq, str, ws, word,
    andThen_cat, andThen_alt, andThen_empty, andThen_quest, andThen_beginText, andThen_lit_cons,
    andThen_lit_nil, andThen_lit_end, andThen_plus, andThen_cls_cons, andThen_cls_nil,
    andThen_star_cls_cons, andThen_star_cls_nil, andThen_cap_cat, andThen_cap_alt,
    List.cons_append, List.nil_append, List.append_nil, List.head?_nil, List.head?_cons,
    Option.map_none', Option.map_some', Function.update_same, Option.getD_some, hc]

theorem andThen_lit_space_cat (l T t : List Char) (b : Regex) (K : MState → List MState)
    (pos : Nat) (caps : Nat → Option (List Char))
    (hl : ∀ c ∈ l, isPerlSpace c = false) (hT : ∀ c ∈ T, isPerlSpace c = false) :
    andThen (.lit l) (andThen (.cat (Regex.plus (.cls isPerlSpace)) b) K)
        ⟨pos, T ++ ' ' :: t, caps⟩ =
      if l = T then
        andThen (.star true (.cls isPerlSpace)) (andThen b K) ⟨pos + l.length + 1, t, caps⟩
      else [] := by
  have h : andThen (.cat (Regex.plus (.cls isPerlSpace)) b) K =
      andThen (Regex.plus (.cls isPerlSpace)) (andThen b K) := by
    funext s; exact andThen_cat _ _ _ _
  rw [h, andThen_lit_space_plus l T t _ pos caps hl hT]

/-- The tail of the PHP pattern on a type, a name and a parenthesis: it matches
only the type `function`, and then captures the name. -/
theorem phpRest_type (K : MState → List MState) (pos : Nat) (T name R : List Char)
    (caps : Nat → Option (List Char)) (hT : ∀ c ∈ T, isTypeChar c = true)
    (hne : name ≠ []) (hw : ∀ c ∈ name, isWordChar c = true) :
    (∃ s' : MState, s'.caps 2 = some name ∧
      andThen (Regex.seq [str "function", Regex.plus ws, .cap 2 (Regex.plus word),
        .star true ws, str "("]) K ⟨pos, T ++ ' ' :: (name ++ '(' :: R), caps⟩ = K s') ∨
    andThen (Regex.seq [str "function", Regex.plus ws, .cap 2 (Regex.plus word),
        .star true ws, str "("]) K ⟨pos, T ++ ' ' :: (name ++ '(' :: R), caps⟩ = [] := by
  obtain ⟨n0, name', rfl⟩ := List.exists_cons_of_ne_nil hne
  have h0 : isWordChar n0 = true := hw n0 (by simp)
  have hw' : ∀ c ∈ name', isWordChar c = true := fun c hc => hw c (by simp [hc])
  have h0s := isPerlSpace_of_word h0
  have hTs : ∀ c ∈ T, isPerlSpace c = false := fun c hc => isPerlSpace_of_type (hT c hc)
  simp only [reduceIte, Char.reduceEq, Bool.false_eq_true, class_table, Regex.seq, str, ws, word,
    andThen_cat, andThen_alt, andThen_empty, andThen_quest, andThen_beginText, andThen_lit_cons,
    andThen_lit_nil, andThen_lit_end, andThen_plus, andThen_cls_cons, andThen_cls_nil,
    andThen_star_cls_cons, andThen_star_cls_nil, andThen_cap_cat, andThen_cap_alt,
    List.cons_append, List.nil_append, List.append_nil, List.head?_nil, List.head?_cons,
    Option.map_none', Option.map_some', Function.update_same, Option.getD_some, h0s, h0]
  rw [andThen_lit_space_cat _ _ _ _ _ _ _ function_not_space hTs]
  simp only [reduceIte, Char.reduceEq, Bool.false_eq_true, class_table, Regex.seq, str, ws, word,
    andThen_cat, andThen_alt, andThen_empty, andThen_quest, andThen_beginText, andThen_lit_cons,
    andThen_lit_nil, andThen_lit_end, andThen_plus, andThen_cls_cons, andThen_cls_nil,
    andThen_star_cls_cons, andThen_star_cls_nil, andThen_cap_cat, andThen_cap_alt,
    List.cons_append, List.nil_append, List.append_nil, List.head?_nil, List.head?_cons,
    Option.map_none', Option.map_some', Function.update_same, Option.getD_some, h0s, h0]
  rw [andThen_cap_plus_cls_cons _ _ _ _ _ _ _ _ h0 hw' (head?_lparen_word R)
    (fun x t' pos' caps' hx => tail_fails_on_word _ x t' pos' caps' hx)]
  simp only [reduceIte, Char.reduceEq, Bool.false_eq_true, class_table, Regex.seq, str, ws, word,
    andThen_cat, andThen_alt, andThen_empty, andThen_quest, andThen_beginText, andThen_lit_cons,
    andThen_lit_nil, andThen_lit_end, andThen_plus, andThen_cls_cons, andThen_cls_nil,
    andThen_star_cls_cons, andThen_star_cls_nil, andThen_cap_cat, andThen_cap_alt,
    List.cons_append, List.nil_append, List.append_nil, List.head?_nil, List.head?_cons,
    Option.map_none', Option.map_some', Function.update_same, Option.getD_some]
  split
  · exact Or.inl ⟨_, by simp only [Function.update_same], rfl⟩
  · exact Or.inr rfl

/-! ## The PHP and Java patterns on visibility-qualified declarations -/

theorem vis_head (v : String) (hv : v ∈ ["public", "private", "protected"]) (Y : List Char) :
    ∃ t, v.data ++ Y = 'p' :: t := by
  rcases vis_cases hv with rfl | rfl | rfl <;> exact ⟨_, rfl⟩

theorem vis_word (v : String) (hv : v ∈ ["public", "private", "protected"]) :
    v.data ≠ [] ∧ ∀ c ∈ v.data, isWordChar c = true := by
  rcases vis_cases hv with rfl | rfl | rfl <;> decide

theorem patJava_split : patJava = Regex.seq ([.beginText, .star true ws,
      Regex.quest (.cap 1 (.alt (str "public") (.alt (str "private") (str "protected")))),
      .star true ws] ++
    [Regex.quest (.cap 2 (Regex.seq [str "static", Regex.plus ws])),
      Regex.plus (.cls isTypeChar), Regex.plus ws, .cap 3 (Regex.plus word), .star true ws,
      str "("]) := rfl

theorem patPhp_split : patPhp = Regex.seq ([.beginText, .star true ws,
      Regex.quest (.cap 1 (.alt (str "public") (.alt (str "private") (str "protected")))),
      .star true ws] ++
    [str "function", Regex.plus ws, .cap 2 (Regex.plus word), .star true ws, str "("]) := rfl

theorem head?_static (Y : List Char) :
    ∀ c ∈ ("static ".data ++ Y).head?, isPerlSpace c = false := by
  intro c hc
  simp only [List.cons_append, List.head?_cons, Option.mem_def, Option.some.injEq] at hc
  subst hc
  decide

theorem patJava_vis_static (v : String) (hv : v ∈ ["public", "private", "protected"])
    (T name R : List Char) (hTne : T ≠ []) (hT : ∀ c ∈ T, isTypeChar c = true)
    (hne : name ≠ []) (hw : ∀ c ∈ name, isWordChar c = true) :
    lastSub patJava (v.data ++ ' ' :: ("static ".data ++ (T ++ ' ' :: (name ++ '(' :: R)))) =
      some name := by
  rw [lastSub_eq, patJava_num, patJava_split, andThen_seq_append]
  obtain ⟨⟨p₁, r₁, c₁⟩, ⟨p₂, r₂, c₂⟩, h₁, h₂, h⟩ := vis_lead v hv _ (head?_static _)
    (andThen (Regex.seq [Regex.quest (.cap 2 (Regex.seq [str "static", Regex.plus ws])),
      Regex.plus (.cls isTypeChar), Regex.plus ws, .cap 3 (Regex.plus word), .star true ws,
      str "("]) (fun m => [m])) (fun _ => none)
  simp only at h₁ h₂
  subst h₁ h₂
  rw [h]
  obtain ⟨s', hs', e⟩ := javaRest_static (fun m => [m]) p₁ T name R c₁ hTne hT hne hw
  rw [e]
  simp [hs']

theorem patJava_vis_type (v : String) (hv : v ∈ ["public", "private", "protected"])
    (T name R : List Char) (hTne : T ≠ []) (hT : ∀ c ∈ T, isTypeChar c = true)
    (hne : name ≠ []) (hw : ∀ c ∈ name, isWordChar c = true) :
    lastSub patJava (v.data ++ ' ' :: (T ++ ' ' :: (name ++ '(' :: R))) = some name := by
  rw [lastSub_eq, patJava_num, patJava_split, andThen_seq_append]
  obtain ⟨⟨p₁, r₁, c₁⟩, ⟨p₂, r₂, c₂⟩, h₁, h₂, h⟩ := vis_lead v hv _
    (head?_append_of_ne_nil _ T (' ' :: (name ++ '(' :: R)) hTne
      (fun c hc => isPerlSpace_of_type (hT c hc)))
    (andThen (Regex.seq [Regex.quest (.cap 2 (Regex.seq [str "static", Regex.plus ws])),
      Regex.plus (.cls isTypeChar), Regex.plus ws, .cap 3 (Regex.plus word), .star true ws,
      str "("]) (fun m => [m])) (fun _ => none)
  simp only at h₁ h₂
  subst h₁ h₂
  rw [h]
  obtain ⟨s', hs', e⟩ := javaRest_type (fun m => [m]) p₁ T name R c₁ hTne hT hne hw
  rw [e]
  simp [hs']

theorem patPhp_vis_static (v : String) (hv : v ∈ ["public", "private", "protected"])
    (Y : List Char) :
    lastSub patPhp (v.data ++ ' ' :: ("static ".data ++ Y)) = none := by
  rw [lastSub_eq, patPhp_split, andThen_seq_append]
  obtain ⟨⟨p₁, r₁, c₁⟩, ⟨p₂, r₂, c₂⟩, h₁, h₂, h⟩ := vis_lead v hv _ (head?_static Y)
    (andThen (Regex.seq [str "function", Regex.plus ws, .cap 2 (Regex.plus word),
      .star true ws, str "("]) (fun m => [m])) (fun _ => none)
  simp only at h₁ h₂
  subst h₁ h₂
  obtain ⟨t, ht⟩ := vis_head v hv (' ' :: ("static ".data ++ Y))
  rw [h, ht, phpRest_head _ _ _ _ _ (by decide), phpRest_head _ _ _ _ _ (by decide)]
  simp only [List.cons_append, List.nil_append]
  rw [phpRest_head _ _ _ _ _ (by decide)]
  rfl

theorem patPhp_vis_type (v : String) (hv : v ∈ ["public", "private", "protected"])
    (T name R : List Char) (hTne : T ≠ []) (hT : ∀ c ∈ T, isTypeChar c = true)
    (hne : name ≠ []) (hw : ∀ c ∈ name, isWordChar c = true) :
    lastSub patPhp (v.data ++ ' ' :: (T ++ ' ' :: (name ++ '(' :: R))) = some name ∨
    lastSub patPhp (v.data ++ ' ' :: (T ++ ' ' :: (name ++ '(' :: R))) = none := by
  rw [lastSub_eq, patPhp_num, patPhp_split, andThen_seq_append]
  obtain ⟨⟨p₁, r₁, c₁⟩, ⟨p₂, r₂, c₂⟩, h₁, h₂, h⟩ := vis_lead v hv _
    (head?_append_of_ne_nil _ T (' ' :: (name ++ '(' :: R)) hTne
      (fun c hc => isPerlSpace_of_type (hT c hc)))
    (andThen (Regex.seq [str "function", Regex.plus ws, .cap 2 (Regex.plus word),
      .star true ws, str "("]) (fun m => [m])) (fun _ => none)
  simp only at h₁ h₂
  subst h₁ h₂
  obtain ⟨t, ht⟩ := vis_head v hv (' ' :: (T ++ ' ' :: (name ++ '(' :: R)))
  rw [h, ht, phpRest_head _ p₂ ' ' _ _ (by decide), phpRest_head _ 0 'p' _ _ (by decide)]
  rcases phpRest_type (fun m => [m]) p₁ T name R c₁ hT hne hw with ⟨s', hs', e⟩ | e
  · left
    rw [e]
    simp [hs']
  · right
    rw [e]
    rfl

/-! ## `TrimSpace` and the shape of `extractFunctionName` -/

theorem dropWhile_reverse_keep (p : Char → Bool) (c : Char) (hc : p c = false)
    (P : List Char) : ∀ Q : List Char, ∃ R : List Char,
      ((Q ++ c :: P).dropWhile p).reverse = P.reverse ++ c :: R := by
  intro Q
  induction Q with
  | nil => exact ⟨[], by simp [List.dropWhile_cons, hc]⟩
  | cons q Q ih =>
    by_cases hq : p q = true
    · obtain ⟨R, hR⟩ := ih
      exact ⟨R, by simpa [List.dropWhile_cons, hq] using hR⟩
    · exact ⟨Q.reverse ++ [q], by simp [List.dropWhile_cons, hq]⟩

/-- Trimming keeps everything up to a character that is not white space, when
the text does not start with white space. -/
theorem trimSpace_keep (a c : Char) (A B : List Char) (ha : isSpace a = false)
    (hc : isSpace c = false) :
    ∃ R : List Char, (TrimSpace ⟨a :: (A ++ c :: B)⟩).data = a :: (A ++ c :: R) := by
  obtain ⟨R, hR⟩ := dropWhile_reverse_keep isSpace c hc (a :: A).reverse B.reverse
  refine ⟨R, ?_⟩
  have e : (a :: (A ++ c :: B)).reverse = B.reverse ++ c :: (a :: A).reverse := by simp
  simp only [TrimSpace, List.dropWhile_cons, ha, Bool.false_eq_true, if_false, e, hR]
  simp

theorem trimSpace_blank (L : String) (h : ∀ c ∈ L.data, isSpace c = true) :
    (TrimSpace L).data = [] := by
  have : L.data.dropWhile isSpace = [] := List.dropWhile_eq_nil_iff.mpr h
  simp [TrimSpace, this]

theorem trimSpace_part (L : String) : (TrimSpace L).data <:+: L.data := by
  have h1 : (L.data.dropWhile isSpace) <:+ L.data := List.dropWhile_suffix _
  have h2 : ((L.data.dropWhile isSpace).reverse.dropWhile isSpace).reverse <+:
      L.data.dropWhile isSpace := by
    rw [← List.reverse_suffix, List.reverse_reverse]
    exact List.dropWhile_suffix _
  exact List.IsInfix.trans h2.isInfix h1.isInfix

theorem findSome?_map_comm {α β γ : Type} (f : α → Option β) (g : β → γ) (l : List α) :
    (l.findSome? f).map g = l.findSome? (fun x => (f x).map g) := by
  induction l with
  | nil => rfl
  | cons a l ih =>
    simp only [List.findSome?_cons]
    cases f a <;> simp [ih]

theorem findSome?_ext {α β : Type} (f g : α → Option β) (l : List α)
    (h : ∀ x ∈ l, f x = g x) : l.findSome? f = l.findSome? g := by
  induction l with
  | nil => rfl
  | cons a l ih =>
    simp only [List.findSome?_cons]
    rw [h a (by simp), ih (fun x hx => h x (by simp [hx]))]

theorem functionPatterns_anchored :
    ∀ p ∈ functionPatterns, ∃ r, p = Regex.cat .beginText r ∧ p.NumSubexp ≠ 0 := by
  intro p hp
  simp only [functionPatterns, List.mem_cons, List.mem_singleton, List.not_mem_nil,
    or_false] at hp
  rcases hp with rfl | rfl | rfl | rfl | rfl | rfl | rfl | rfl | rfl | rfl | rfl | rfl <;>
    exact ⟨_, rfl, by decide⟩

theorem findStringSubmatch_last (p : Regex) (hp : p ∈ functionPatterns) (s : String) :
    (FindStringSubmatch p s).map (fun l => l.getLastD "") = (lastSub p s.data).map String.mk := by
  obtain ⟨r, rfl, hn⟩ := functionPatterns_anchored p hp
  exact findStringSubmatch_anchored r s hn

/-- The function `extractFunctionName` in terms of the last group of the first
pattern that matches at the start of the trimmed line. -/
theorem extractFunctionName_eq (L : String) :
    extractFunctionName L =
      String.mk ((functionPatterns.findSome? fun p => lastSub p (TrimSpace L).data).getD []) := by
  have h1 : (functionPatterns.findSome? fun p => FindStringSubmatch p (TrimSpace L)).map
      (fun l => l.getLastD "") =
      (functionPatterns.findSome? fun p => lastSub p (TrimSpace L).data).map String.mk := by
    rw [findSome?_map_comm, findSome?_map_comm]
    apply findSome?_ext
    intro p hp
    exact findStringSubmatch_last p hp _
  unfold extractFunctionName
  simp only
  cases hA : functionPatterns.findSome? fun p => FindStringSubmatch p (TrimSpace L) with
  | none =>
    rw [hA] at h1
    cases hB : functionPatterns.findSome? fun p => lastSub p (TrimSpace L).data with
    | none => rfl
    | some w => rw [hB] at h1; simp at h1
  | some m =>
    rw [hA] at h1
    cases hB : functionPatterns.findSome? fun p => lastSub p (TrimSpace L).data with
    | none => rw [hB] at h1; simp at h1
    | some w =>
      rw [hB] at h1
      simp only [Option.map_some', Option.some.injEq] at h1
      simpa using h1

/-! ## Keyword declarations -/

theorem data_ne_nil {s : String} (h : s ≠ "") : s.data ≠ [] := by
  intro hd
  apply h
  apply String.ext
  simpa using hd

theorem extract_func (name R : List Char) (hne : name ≠ [])
    (hw : ∀ c ∈ name, isWordChar c = true) :
    (functionPatterns.findSome? fun p =>
      lastSub p ('f' :: (['u', 'n', 'c', ' '] ++ name ++ '(' :: R))).getD [] = name := by
  have h := patGo_func name R hne hw
  simp only [List.cons_append, List.nil_append, List.append_assoc] at h ⊢
  simp only [functionPatterns, List.findSome?_cons, h, Option.getD_some]

theorem extract_def (name R : List Char) (hne : name ≠ [])
    (hw : ∀ c ∈ name, isWordChar c = true) :
    (functionPatterns.findSome? fun p =>
      lastSub p ('d' :: (['e', 'f', ' '] ++ name ++ '(' :: R))).getD [] = name := by
  have h := patPython_def name R hne hw
  simp only [List.cons_append, List.nil_append, List.append_assoc] at h ⊢
  simp only [functionPatterns, List.findSome?_cons, h, Option.getD_some,
    patGo_none_head 'd' _ (by decide) (by decide)]

theorem extract_function (name R : List Char) (hne : name ≠ [])
    (hw : ∀ c ∈ name, isWordChar c = true) :
    (functionPatterns.findSome? fun p =>
      lastSub p ('f' :: (['u', 'n', 'c', 't', 'i', 'o', 'n', ' '] ++ name ++ '(' :: R))).getD [] =
      name := by
  have h := patJsFunction_function name R hne hw
  simp only [List.cons_append, List.nil_append, List.append_assoc] at h ⊢
  simp only [functionPatterns, List.findSome?_cons, h, Option.getD_some,
    patGo_none_function, patPython_none_head 'f' _ (by decide) (by decide)]

theorem extract_fn (name R : List Char) (hne : name ≠ [])
    (hw : ∀ c ∈ name, isWordChar c = true) :
    (functionPatterns.findSome? fun p =>
      lastSub p ('f' :: (['n', ' '] ++ name ++ '(' :: R))).getD [] = name := by
  have h := patJava_fn name R hne hw
  obtain ⟨n0, name', rfl⟩ := List.exists_cons_of_ne_nil hne
  have h0 : isWordChar n0 = true := hw n0 (by simp)
  have ha := patJsAssign_none ['f', 'n'] (name' ++ '(' :: R) n0 (by simp) (by decide)
    (isPerlSpace_of_word h0) (equals_ne_of_word h0)
  simp only [List.cons_append, List.nil_append, List.append_assoc] at h ha ⊢
  simp only [functionPatterns, List.findSome?_cons, h, ha, Option.getD_some,
    patGo_none_fn, patPython_none_head 'f' _ (by decide) (by decide), patJsFunction_none_fn,
    patJsArrow_none_head 'f' _ (by decide) (by decide) (by decide) (by decide), patPhp_none_fn]

/-- Claim C3, for every remainder of the line (with or without a newline): a
line made of one of the keywords `func`, `def`, `function`, `fn`, a blank, a
non-empty identifier of word characters, an opening parenthesis and any
remainder yields exactly the identifier. -/
theorem extractFunctionName_keyword (k name rest : String)
    (hk : k ∈ ["func", "def", "function", "fn"]) (hne : name ≠ "")
    (hw : ∀ c ∈ name.data, isWordChar c = true) :
    extractFunctionName (k ++ " " ++ name ++ "(" ++ rest) = name := by
  have hne' := data_ne_nil hne
  rw [extractFunctionName_eq]
  simp only [List.mem_cons, List.mem_singleton, List.not_mem_nil, or_false] at hk
  rcases hk with rfl | rfl | rfl | rfl
  · obtain ⟨R, hR⟩ := trimSpace_keep 'f' '(' (['u', 'n', 'c', ' '] ++ name.data) rest.data
      (by decide) (by decide)
    have e : "func" ++ " " ++ name ++ "(" ++ rest =
        String.mk ('f' :: (['u', 'n', 'c', ' '] ++ name.data ++ '(' :: rest.data)) := by
      apply String.ext; simp
    rw [e, hR, extract_func name.data R hne' hw]
  · obtain ⟨R, hR⟩ := trimSpace_keep 'd' '(' (['e', 'f', ' '] ++ name.data) rest.data
      (by decide) (by decide)
    have e : "def" ++ " " ++ name ++ "(" ++ rest =
        String.mk ('d' :: (['e', 'f', ' '] ++ name.data ++ '(' :: rest.data)) := by
      apply String.ext; simp
    rw [e, hR, extract_def name.data R hne' hw]
  · obtain ⟨R, hR⟩ := trimSpace_keep 'f' '('
      (['u', 'n', 'c', 't', 'i', 'o', 'n', ' '] ++ name.data) rest.data (by decide) (by decide)
    have e : "function" ++ " " ++ name ++ "(" ++ rest =
        String.mk ('f' :: (['u', 'n', 'c', 't', 'i', 'o', 'n', ' '] ++ name.data ++
          '(' :: rest.data)) := by
      apply String.ext; simp
    rw [e, hR, extract_function name.data R hne' hw]
  · obtain ⟨R, hR⟩ := trimSpace_keep 'f' '(' (['n', ' '] ++ name.data) rest.data
      (by decide) (by decide)
    have e : "fn" ++ " " ++ name ++ "(" ++ rest =
        String.mk ('f' :: (['n', ' '] ++ name.data ++ '(' :: rest.data)) := by
      apply String.ext; simp
    rw [e, hR, extract_fn name.data R hne' hw]

/-- Witness for claim C3: the two example lines of the specification. -/
theorem extractFunctionName_keyword_witness :
    extractFunctionName ("func" ++ " " ++ "Foo" ++ "(" ++ "x int) error \x7b") = "Foo" ∧
    extractFunctionName ("def" ++ " " ++ "process" ++ "(" ++ "self, x):") = "process" :=
  ⟨extractFunctionName_keyword "func" "Foo" "x int) error \x7b" (by decide) (by decide)
      (by decide),
   extractFunctionName_keyword "def" "process" "self, x):" (by decide) (by decide)
      (by decide)⟩

/-! ## Visibility-qualified declarations -/

theorem trimSpace_keep_append (P B : List Char) (c : Char)
    (hP : ∃ a t, P = a :: t ∧ isSpace a = false) (hc : isSpace c = false) :
    ∃ R : List Char, (TrimSpace ⟨P ++ c :: B⟩).data = P ++ c :: R := by
  obtain ⟨a, t, rfl, ha⟩ := hP
  exact trimSpace_keep a c t B ha hc

/-- The patterns that come before the PHP pattern fail on a line that starts
with a visibility keyword, a blank and a character `x0` that is neither white
space nor an equals sign. -/
theorem early_patterns_vis (v : String) (hv : v ∈ ["public", "private", "protected"])
    (x0 : Char) (X : List Char) (hxs : isPerlSpace x0 = false) (hxe : ¬ ('=' = x0)) :
    lastSub patGo (v.data ++ ' ' :: x0 :: X) = none ∧
    lastSub patPython (v.data ++ ' ' :: x0 :: X) = none ∧
    lastSub patJsFunction (v.data ++ ' ' :: x0 :: X) = none ∧
    lastSub patJsArrow (v.data ++ ' ' :: x0 :: X) = none ∧
    lastSub patJsAssign (v.data ++ ' ' :: x0 :: X) = none := by
  obtain ⟨t, ht⟩ := vis_head v hv (' ' :: x0 :: X)
  refine ⟨?_, ?_, ?_, ?_, ?_⟩
  · rw [ht]; exact patGo_none_head 'p' t (by decide) (by decide)
  · rw [ht]; exact patPython_none_head 'p' t (by decide) (by decide)
  · rw [ht]; exact patJsFunction_none_head 'p' t (by decide) (by decide)
  · rw [ht]; exact patJsArrow_none_head 'p' t (by decide) (by decide) (by decide) (by decide)
  · exact patJsAssign_none v.data X x0 (vis_word v hv).1 (vis_word v hv).2 hxs hxe

theorem extract_vis_static (v : String) (hv : v ∈ ["public", "private", "protected"])
    (T name R : List Char) (hTne : T ≠ []) (hT : ∀ c ∈ T, isTypeChar c = true)
    (hne : name ≠ []) (hw : ∀ c ∈ name, isWordChar c = true) :
    (functionPatterns.findSome? fun p => lastSub p
      (v.data ++ ' ' :: ("static ".data ++ (T ++ ' ' :: (name ++ '(' :: R))))).getD [] =
      name := by
  obtain ⟨h1, h2, h3, h4, h5⟩ := early_patterns_vis v hv 's'
    ("tatic ".data ++ (T ++ ' ' :: (name ++ '(' :: R))) (by decide) (by decide)
  have h6 := patPhp_vis_static v hv (T ++ ' ' :: (name ++ '(' :: R))
  have h7 := patJava_vis_static v hv T name R hTne hT hne hw
  simp only [List.cons_append, List.nil_append] at h1 h2 h3 h4 h5 h6 h7 ⊢
  simp only [functionPatterns, List.findSome?_cons, h1, h2, h3, h4, h5, h6, h7,
    Option.getD_some]

theorem extract_vis_type (v : String) (hv : v ∈ ["public", "private", "protected"])
    (T name R : List Char) (hTne : T ≠ []) (hT : ∀ c ∈ T, isTypeChar c = true)
    (hne : name ≠ []) (hw : ∀ c ∈ name, isWordChar c = true) :
    (functionPatterns.findSome? fun p => lastSub p
      (v.data ++ ' ' :: (T ++ ' ' :: (name ++ '(' :: R)))).getD [] = name := by
  have h7 := patJava_vis_type v hv T name R hTne hT hne hw
  have h6 := patPhp_vis_type v hv T name R hTne hT hne hw
  obtain ⟨c0, T', rfl⟩ := List.exists_cons_of_ne_nil hTne
  have hc0 : isTypeChar c0 = true := hT c0 (by simp)
  obtain ⟨h1, h2, h3, h4, h5⟩ := early_patterns_vis v hv c0
    (T' ++ ' ' :: (name ++ '(' :: R)) (isPerlSpace_of_type hc0) (equals_ne_of_type hc0)
  simp only [List.cons_append, List.nil_append] at h1 h2 h3 h4 h5 h6 h7 ⊢
  rcases h6 with h6 | h6 <;>
  simp only [functionPatterns, List.findSome?_cons, h1, h2, h3, h4, h5, h6, h7,
    Option.getD_some]

/-- Claim C4, for every remainder of the line: a line made of a visibility
keyword, optionally `static`, a non-empty return type over `[A-Za-z0-9_<>]`, a
non-empty identifier of word characters, an opening parenthesis and any
remainder yields exactly the identifier (the last group), not the visibility or
`static` group. -/
theorem extractFunctionName_visibility (v T name rest : String) (withStatic : Bool)
    (hv : v ∈ ["public", "private", "protected"])
    (hTne : T ≠ "") (hT : ∀ c ∈ T.data, isTypeChar c = true)
    (hne : name ≠ "") (hw : ∀ c ∈ name.data, isWordChar c = true) :
    extractFunctionName
      (v ++ " " ++ (if withStatic then "static " else "") ++ T ++ " " ++ name ++ "(" ++ rest) =
      name := by
  have hne' := data_ne_nil hne
  have hTne' := data_ne_nil hTne
  rw [extractFunctionName_eq]
  cases withStatic with
  | true =>
    have hP : ∃ a t, v.data ++ ' ' :: ("static ".data ++ (T.data ++ ' ' :: name.data)) = a :: t ∧
        isSpace a = false := by
      obtain ⟨t, ht⟩ := vis_head v hv (' ' :: ("static ".data ++ (T.data ++ ' ' :: name.data)))
      exact ⟨'p', t, ht, by decide⟩
    obtain ⟨R, hR⟩ := trimSpace_keep_append _ rest.data '(' hP (by decide)
    have e : v ++ " " ++ (if true = true then "static " else "") ++ T ++ " " ++ name ++ "(" ++
        rest = String.mk ((v.data ++ ' ' :: ("static ".data ++ (T.data ++ ' ' :: name.data))) ++
          '(' :: rest.data) := by
      apply String.ext; simp
    rw [e, hR]
    have h := extract_vis_static v hv T.data name.data R hTne' hT hne' hw
    simp only [List.append_assoc, List.cons_append, List.nil_append] at h ⊢
    rw [h]
  | false =>
    have hP : ∃ a t, v.data ++ ' ' :: (T.data ++ ' ' :: name.data) = a :: t ∧
        isSpace a = false := by
      obtain ⟨t, ht⟩ := vis_head v hv (' ' :: (T.data ++ ' ' :: name.data))
      exact ⟨'p', t, ht, by decide⟩
    obtain ⟨R, hR⟩ := trimSpace_keep_append _ rest.data '(' hP (by decide)
    have e : v ++ " " ++ (if false = true then "static " else "") ++ T ++ " " ++ name ++ "(" ++
        rest = String.mk ((v.data ++ ' ' :: (T.data ++ ' ' :: name.data)) ++
          '(' :: rest.data) := by
      apply String.ext; simp
    rw [e, hR]
    have h := extract_vis_type v hv T.data name.data R hTne' hT hne' hw
    simp only [List.append_assoc, List.cons_append, List.nil_append] at h ⊢
    rw [h]

/-- Witness for claim C4: the example line of the specification. -/
theorem extractFunctionName_visibility_witness :
    extractFunctionName ("public" ++ " " ++ (if true then "static " else "") ++ "int" ++ " " ++
      "compute" ++ "(" ++ "int a) \x7b") = "compute" :=
  extractFunctionName_visibility "public" "int" "compute" "int a) \x7b" true (by decide)
    (by decide) (by decide) (by decide) (by decide)

/-! ## What a match consumes and captures -/

theorem starRun_consumes (f : MState → List MState) (g : Bool)
    (hf : ∀ s m, m ∈ f s → ∃ w, s.rest = w ++ m.rest ∧ m.pos = s.pos + w.length) :
    ∀ fuel s m, m ∈ starRun f g fuel s →
      ∃ w, s.rest = w ++ m.rest ∧ m.pos = s.pos + w.length := by
  intro fuel
  induction fuel with
  | zero =>
    intro s m hm
    simp only [starRun, List.mem_singleton] at hm
    subst hm
    exact ⟨[], by simp⟩
  | succ n ih =>
    intro s m hm
    have key : m = s ∨ ∃ x ∈ f s, m ∈ starRun f g n x := by
      simp only [starRun] at hm
      cases g
      · simp only [Bool.false_eq_true, if_false, List.mem_cons, List.mem_flatMap,
          List.mem_filter] at hm
        rcases hm with h | ⟨x, ⟨hx, -⟩, hmx⟩
        · exact Or.inl h
        · exact Or.inr ⟨x, hx, hmx⟩
      · simp only [if_true, List.mem_append, List.mem_flatMap, List.mem_filter,
          List.mem_singleton] at hm
        rcases hm with ⟨x, ⟨hx, -⟩, hmx⟩ | h
        · exact Or.inr ⟨x, hx, hmx⟩
        · exact Or.inl h
    rcases key with rfl | ⟨x, hx, hmx⟩
    · exact ⟨[], by simp⟩
    · obtain ⟨w₁, h₁, p₁⟩ := hf s x hx
      obtain ⟨w₂, h₂, p₂⟩ := ih x m hmx
      exact ⟨w₁ ++ w₂, by rw [h₁, h₂, List.append_assoc], by rw [p₂, p₁]; simp; omega⟩

/-- A match consumes a prefix of the text ahead and advances by its length. -/
theorem run_consumes (r : Regex) :
    ∀ s m, m ∈ r.run s → ∃ w, s.rest = w ++ m.rest ∧ m.pos = s.pos + w.length := by
  induction r with
  | beginText =>
    intro s m hm
    simp only [Regex.run] at hm
    split at hm
    · simp only [List.mem_singleton] at hm; subst hm; exact ⟨[], by simp⟩
    · simp at hm
  | lit l =>
    intro s m hm
    simp only [Regex.run] at hm
    split at hm
    · rename_i t ht
      simp only [List.mem_singleton] at hm
      subst hm
      exact ⟨l, (stripLit_eq_some_iff _ _ _).mp ht, rfl⟩
    · simp at hm
  | cls p =>
    intro s m hm
    simp only [Regex.run] at hm
    split at hm
    · simp at hm
    · rename_i c t hs
      split at hm
      · simp only [List.mem_singleton] at hm
        subst hm
        exact ⟨[c], by simp [hs], rfl⟩
      · simp at hm
  | cat a b iha ihb =>
    intro s m hm
    simp only [Regex.run, List.mem_flatMap] at hm
    obtain ⟨x, hx, hmx⟩ := hm
    obtain ⟨w₁, h₁, p₁⟩ := iha s x hx
    obtain ⟨w₂, h₂, p₂⟩ := ihb x m hmx
    exact ⟨w₁ ++ w₂, by rw [h₁, h₂, List.append_assoc], by rw [p₂, p₁]; simp; omega⟩
  | alt a b iha ihb =>
    intro s m hm
    simp only [Regex.run, List.mem_append] at hm
    rcases hm with h | h
    · exact iha s m h
    · exact ihb s m h
  | star g a ih =>
    intro s m hm
    simp only [Regex.run] at hm
    exact starRun_consumes a.run g ih _ s m hm
  | cap i a ih =>
    intro s m hm
    simp only [Regex.run, List.mem_map] at hm
    obtain ⟨x, hx, rfl⟩ := hm
    exact ih s x hx
  | empty =>
    intro s m hm
    simp only [Regex.run, List.mem_singleton] at hm
    subst hm
    exact ⟨[], by simp⟩

theorem starRun_frame (f : MState → List MState) (g : Bool) (k : Nat)
    (hf : ∀ s m, m ∈ f s → m.caps k = s.caps k) :
    ∀ fuel s m, m ∈ starRun f g fuel s → m.caps k = s.caps k := by
  intro fuel
  induction fuel with
  | zero =>
    intro s m hm
    simp only [starRun, List.mem_singleton] at hm
    subst hm
    rfl
  | succ n ih =>
    intro s m hm
    have key : m = s ∨ ∃ x ∈ f s, m ∈ starRun f g n x := by
      simp only [starRun] at hm
      cases g
      · simp only [Bool.false_eq_true, if_false, List.mem_cons, List.mem_flatMap,
          List.mem_filter] at hm
        rcases hm with h | ⟨x, ⟨hx, -⟩, hmx⟩
        · exact Or.inl h
        · exact Or.inr ⟨x, hx, hmx⟩
      · simp only [if_true, List.mem_append, List.mem_flatMap, List.mem_filter,
          List.mem_singleton] at hm
        rcases hm with ⟨x, ⟨hx, -⟩, hmx⟩ | h
        · exact Or.inr ⟨x, hx, hmx⟩
        · exact Or.inl h
    rcases key with rfl | ⟨x, hx, hmx⟩
    · rfl
    · rw [ih x m hmx, hf s x hx]

/-- A match leaves alone the groups that do not occur in the pattern. -/
theorem run_frame (r : Regex) (k : Nat) (hk : k ∉ r.groups) :
    ∀ s m, m ∈ r.run s → m.caps k = s.caps k := by
  induction r with
  | beginText =>
    intro s m hm
    simp only [Regex.run] at hm
    split at hm
    · simp only [List.mem_singleton] at hm; subst hm; rfl
    · simp at hm
  | lit l =>
    intro s m hm
    simp only [Regex.run] at hm
    split at hm
    · simp only [List.mem_singleton] at hm; subst hm; rfl
    · simp at hm
  | cls p =>
    intro s m hm
    simp only [Regex.run] at hm
    split at hm
    · simp at hm
    · split at hm
      · simp only [List.mem_singleton] at hm; subst hm; rfl
      · simp at hm
  | cat a b iha ihb =>
    intro s m hm
    simp only [Regex.groups, List.mem_append, not_or] at hk
    simp only [Regex.run, List.mem_flatMap] at hm
    obtain ⟨x, hx, hmx⟩ := hm
    rw [ihb hk.2 x m hmx, iha hk.1 s x hx]
  | alt a b iha ihb =>
    intro s m hm
    simp only [Regex.groups, List.mem_append, not_or] at hk
    simp only [Regex.run, List.mem_append] at hm
    rcases hm with h | h
    · exact iha hk.1 s m h
    · exact ihb hk.2 s m h
  | star g a ih =>
    intro s m hm
    simp only [Regex.groups] at hk
    simp only [Regex.run] at hm
    exact starRun_frame a.run g k (ih hk) _ s m hm
  | cap i a ih =>
    intro s m hm
    simp only [Regex.groups, List.mem_cons, not_or] at hk
    simp only [Regex.run, List.mem_map] at hm
    obtain ⟨x, hx, rfl⟩ := hm
    simp only [Function.update_noteq hk.1]
    exact ih hk.2 s x hx
  | empty =>
    intro s m hm
    simp only [Regex.run, List.mem_singleton] at hm
    subst hm
    rfl

theorem flatMap_ext {α β : Type} (l : List α) (f g : α → List β)
    (h : ∀ x ∈ l, f x = g x) : l.flatMap f = l.flatMap g := by
  induction l with
  | nil => rfl
  | cons a l ih =>
    simp only [List.flatMap_cons]
    rw [h a (by simp), ih (fun x hx => h x (by simp [hx]))]

/-- The fuel of a star is never short: from the length of the text ahead on,
more fuel does not change the matches. -/
theorem starRun_fuel (f : MState → List MState) (g : Bool) :
    ∀ fuel s, s.rest.length ≤ fuel → starRun f g (fuel + 1) s = starRun f g fuel s := by
  intro fuel
  induction fuel with
  | zero =>
    intro s hs
    have h0 : ((f s).filter fun m => decide (m.rest.length < s.rest.length)) = [] := by
      rw [List.filter_eq_nil_iff]
      intro m _
      simp only [decide_eq_true_eq]
      omega
    simp only [starRun, h0, List.flatMap_nil]
    cases g <;> rfl
  | succ n ih =>
    intro s hs
    have h1 : ((f s).filter fun m => decide (m.rest.length < s.rest.length)).flatMap
          (starRun f g (n + 1)) =
        ((f s).filter fun m => decide (m.rest.length < s.rest.length)).flatMap
          (starRun f g n) := by
      apply flatMap_ext
      intro x hx
      have hx' := (List.mem_filter.mp hx).2
      simp only [decide_eq_true_eq] at hx'
      exact ih x (by omega)
    show starRun f g (n + 1 + 1) s = starRun f g (n + 1) s
    rw [starRun, h1, starRun]

theorem starRun_cls_consumes (p : Char → Bool) (g : Bool) :
    ∀ fuel s m, m ∈ starRun (Regex.cls p).run g fuel s →
      ∃ w, s.rest = w ++ m.rest ∧ m.pos = s.pos + w.length ∧ ∀ c ∈ w, p c = true := by
  intro fuel
  induction fuel with
  | zero =>
    intro s m hm
    simp only [starRun, List.mem_singleton] at hm
    subst hm
    exact ⟨[], by simp⟩
  | succ n ih =>
    intro s m hm
    have key : m = s ∨ ∃ x ∈ (Regex.cls p).run s, m ∈ starRun (Regex.cls p).run g n x := by
      simp only [starRun] at hm
      cases g
      · simp only [Bool.false_eq_true, if_false, List.mem_cons, List.mem_flatMap,
          List.mem_filter] at hm
        rcases hm with h | ⟨x, ⟨hx, -⟩, hmx⟩
        · exact Or.inl h
        · exact Or.inr ⟨x, hx, hmx⟩
      · simp only [if_true, List.mem_append, List.mem_flatMap, List.mem_filter,
          List.mem_singleton] at hm
        rcases hm with ⟨x, ⟨hx, -⟩, hmx⟩ | h
        · exact Or.inr ⟨x, hx, hmx⟩
        · exact Or.inl h
    rcases key with rfl | ⟨x, hx, hmx⟩
    · exact ⟨[], by simp⟩
    · obtain ⟨w₂, h₂, p₂, a₂⟩ := ih x m hmx
      simp only [Regex.run] at hx
      split at hx
      · simp at hx
      · rename_i c t hs
        split at hx
        · rename_i hc
          simp only [List.mem_singleton] at hx
          subst hx
          refine ⟨c :: w₂, ?_, ?_, ?_⟩
          · rw [hs]; simpa using h₂
          · simp only at p₂; rw [p₂]; simp; omega
          · intro d hd
            rcases List.mem_cons.mp hd with rfl | hd
            · exact hc
            · exact a₂ d hd
        · simp at hx

/-- The group `(\w+)` captures a non-empty run of word characters at the front
of the text. -/
theorem capturesWord_cap (k : Nat) : CapturesWord k (.cap k (Regex.plus word)) := by
  intro s m hm
  simp only [Regex.run, Regex.plus, word, List.mem_map, List.mem_flatMap] at hm
  obtain ⟨x, ⟨y, hy, hx⟩, rfl⟩ := hm
  obtain ⟨w₂, h₂, p₂, a₂⟩ := starRun_cls_consumes isWordChar true _ y x hx
  split at hy
  · simp at hy
  · rename_i c t hs
    split at hy
    · rename_i hc
      simp only [List.mem_singleton] at hy
      subst hy
      simp only at h₂ p₂
      refine ⟨c :: w₂, ?_, by simp, ?_, ?_⟩
      · have e : x.pos - s.pos = (c :: w₂).length := by rw [p₂]; simp; omega
        simp only [Function.update_same, e, hs, h₂]
        rw [← List.cons_append, List.take_left]
      · intro d hd
        rcases List.mem_cons.mp hd with rfl | hd
        · exact hc
        · exact a₂ d hd
      · rw [hs, h₂, ← List.cons_append]
        exact (List.prefix_append _ _).isInfix
    · simp at hy

theorem capturesWord_cat_left (k : Nat) (a b : Regex) (ha : CapturesWord k a)
    (hb : k ∉ b.groups) : CapturesWord k (.cat a b) := by
  intro s m hm
  simp only [Regex.run, List.mem_flatMap] at hm
  obtain ⟨x, hx, hmx⟩ := hm
  obtain ⟨w, hw, hne, hall, hin⟩ := ha s x hx
  exact ⟨w, by rw [run_frame b k hb x m hmx, hw], hne, hall, hin⟩

theorem capturesWord_cat_right (k : Nat) (a b : Regex) (hb : CapturesWord k b) :
    CapturesWord k (.cat a b) := by
  intro s m hm
  simp only [Regex.run, List.mem_flatMap] at hm
  obtain ⟨x, hx, hmx⟩ := hm
  obtain ⟨w, hw, hne, hall, hin⟩ := hb x m hmx
  obtain ⟨u, hu, -⟩ := run_consumes a s x hx
  refine ⟨w, hw, hne, hall, ?_⟩
  rw [hu]
  exact List.IsInfix.trans hin (List.suffix_append _ _).isInfix

theorem patC_num : patC.NumSubexp = 1 := by decide
theorem patRuby_num : patRuby.NumSubexp = 1 := by decide
theorem patRust_num : patRust.NumSubexp = 1 := by decide
theorem patSwift_num : patSwift.NumSubexp = 1 := by decide

/-- In every pattern of the table the last group is a mandatory `(\w+)`. -/
theorem functionPatterns_capturesWord :
    ∀ p ∈ functionPatterns, CapturesWord p.NumSubexp p := by
  intro p hp
  simp only [functionPatterns, List.mem_cons, List.mem_singleton, List.not_mem_nil,
    or_false] at hp
  rcases hp with rfl | rfl | rfl | rfl | rfl | rfl | rfl | rfl | rfl | rfl | rfl | rfl
  · rw [patGo_num]
    simp only [patGo, Regex.seq]
    repeat (first
      | exact capturesWord_cap _
      | exact capturesWord_cat_left _ _ _ (capturesWord_cap _) (by decide)
      | apply capturesWord_cat_right)
  · rw [patPython_num]
    simp only [patPython, Regex.seq]
    repeat (first
      | exact capturesWord_cap _
      | exact capturesWord_cat_left _ _ _ (capturesWord_cap _) (by decide)
      | apply capturesWord_cat_right)
  · rw [patJsFunction_num]
    simp only [patJsFunction, Regex.seq]
    repeat (first
      | exact capturesWord_cap _
      | exact capturesWord_cat_left _ _ _ (capturesWord_cap _) (by decide)
      | apply capturesWord_cat_right)
  · rw [patJsArrow_num]
    simp only [patJsArrow, Regex.seq]
    repeat (first
      | exact capturesWord_cap _
      | exact capturesWord_cat_left _ _ _ (capturesWord_cap _) (by decide)
      | apply capturesWord_cat_right)
  · rw [patJsAssign_num]
    simp only [patJsAssign, Regex.seq]
    repeat (first
      | exact capturesWord_cap _
      | exact capturesWord_cat_left _ _ _ (capturesWord_cap _) (by decide)
      | apply capturesWord_cat_right)
  · rw [patPhp_num]
    simp only [patPhp, Regex.seq]
    repeat (first
      | exact capturesWord_cap _
      | exact capturesWord_cat_left _ _ _ (capturesWord_cap _) (by decide)
      | apply capturesWord_cat_right)
  · rw [patJava_num]
    simp only [patJava, Regex.seq]
    repeat (first
      | exact capturesWord_cap _
      | exact capturesWord_cat_left _ _ _ (capturesWord_cap _) (by decide)
      | apply capturesWord_cat_right)
  · rw [patC_num]
    simp only [patC, Regex.seq]
    repeat (first
      | exact capturesWord_cap _
      | exact capturesWord_cat_left _ _ _ (capturesWord_cap _) (by decide)
      | apply capturesWord_cat_right)
  · rw [patRuby_num]
    simp only [patRuby, Regex.seq]
    repeat (first
      | exact capturesWord_cap _
      | apply capturesWord_cat_right)
  · rw [patRust_num]
    simp only [patRust, Regex.seq]
    repeat (first
      | exact capturesWord_cap _
      | apply capturesWord_cat_right)
  · rw [patSwift_num]
    simp only [patSwift, Regex.seq]
    repeat (first
      | exact capturesWord_cap _
      | apply capturesWord_cat_right)
  · rw [patPython_num]
    simp only [patPython, Regex.seq]
    repeat (first
      | exact capturesWord_cap _
      | exact capturesWord_cat_left _ _ _ (capturesWord_cap _) (by decide)
      | apply capturesWord_cat_right)

theorem lastSub_word (p : Regex) (hp : p ∈ functionPatterns) (s w : List Char)
    (h : lastSub p s = some w) :
    w ≠ [] ∧ (∀ c ∈ w, isWordChar c = true) ∧ w <:+: s := by
  unfold lastSub matchAt at h
  cases hm : (p.run ⟨0, s.drop 0, fun _ => none⟩).head? with
  | none => rw [hm] at h; simp at h
  | some m =>
    rw [hm] at h
    simp only [Option.map_some', Option.some.injEq] at h
    have hmem : m ∈ p.run ⟨0, s.drop 0, fun _ => none⟩ := List.mem_of_mem_head? hm
    obtain ⟨u, hu, hne, hall, hin⟩ := functionPatterns_capturesWord p hp _ m hmem
    rw [hu] at h
    simp only [Option.getD_some] at h
    subst h
    exact ⟨hne, hall, by simpa using hin⟩

theorem findStringSubmatch_length (p : Regex) (s : String) (l : List String)
    (h : FindStringSubmatch p s = some l) : l.length = p.NumSubexp + 1 := by
  unfold FindStringSubmatch at h
  obtain ⟨i, -, hi⟩ := List.exists_of_findSome?_eq_some h
  cases hm : matchAt p s.data i with
  | none => rw [hm] at hi; simp at hi
  | some m =>
    rw [hm] at hi
    simp only [Option.map_some', Option.some.injEq] at hi
    rw [← hi]
    simp

theorem findStringSubmatch_none_iff (p : Regex) (hp : p ∈ functionPatterns) (s : String) :
    FindStringSubmatch p s = none ↔ lastSub p s.data = none := by
  have h := findStringSubmatch_last p hp s
  constructor
  · intro h0
    rw [h0] at h
    simpa using h.symm
  · intro h0
    rw [h0] at h
    simpa using h

/-- Claim C5: the result is empty exactly when no pattern of the table matches
the trimmed line; otherwise it is a non-empty string of word characters that is
a contiguous part of the line.  Whenever a pattern matches, its last submatch,
which is what the function returns, is not empty: it is a group that took part
in the match, never an optional group that was skipped. -/
theorem extractFunctionName_result (L : String) :
    (extractFunctionName L = "" ↔
      ∀ p ∈ functionPatterns, FindStringSubmatch p (TrimSpace L) = none) ∧
    (extractFunctionName L ≠ "" →
      (∀ c ∈ (extractFunctionName L).data, isWordChar c = true) ∧
      (extractFunctionName L).data <:+: L.data) ∧
    (∀ p ∈ functionPatterns, ∀ submatches,
      FindStringSubmatch p (TrimSpace L) = some submatches →
        submatches.getLastD "" ≠ "" ∧ submatches.length = p.NumSubexp + 1) := by
  refine ⟨?_, ?_, ?_⟩
  · rw [extractFunctionName_eq]
    cases hf : functionPatterns.findSome? fun p => lastSub p (TrimSpace L).data with
    | none =>
      have hall : ∀ p ∈ functionPatterns, lastSub p (TrimSpace L).data = none := by
        simpa [List.findSome?_eq_none_iff] using hf
      exact ⟨fun _ p hp => (findStringSubmatch_none_iff p hp _).mpr (hall p hp), fun _ => rfl⟩
    | some w =>
      obtain ⟨p, hp, hw⟩ := List.exists_of_findSome?_eq_some hf
      obtain ⟨hne, -, -⟩ := lastSub_word p hp _ w hw
      simp only [Option.getD_some]
      refine ⟨fun h => ?_, fun h => ?_⟩
      · exfalso
        apply hne
        have := congrArg String.data h
        simpa using this
      · exfalso
        have := (findStringSubmatch_none_iff p hp _).mp (h p hp)
        rw [this] at hw
        simp at hw
  · rw [extractFunctionName_eq]
    cases hf : functionPatterns.findSome? fun p => lastSub p (TrimSpace L).data with
    | none => exact fun h => absurd rfl h
    | some w =>
      obtain ⟨p, hp, hw⟩ := List.exists_of_findSome?_eq_some hf
      obtain ⟨-, hall, hin⟩ := lastSub_word p hp _ w hw
      exact fun _ => ⟨hall, hin.trans (trimSpace_part L)⟩
  · intro p hp submatches hs
    constructor
    · have h := findStringSubmatch_last p hp (TrimSpace L)
      rw [hs] at h
      cases hl : lastSub p (TrimSpace L).data with
      | none => rw [hl] at h; simp at h
      | some w =>
        rw [hl] at h
        simp only [Option.map_some', Option.some.injEq] at h
        obtain ⟨hne, -, -⟩ := lastSub_word p hp _ w hl
        rw [h]
        intro hw
        apply hne
        have := congrArg String.data hw
        simpa using this
    · exact findStringSubmatch_length p (TrimSpace L) submatches hs

/-! ## File eligibility -/

theorem supportedFileTypes_eq_true_iff (P : String) :
    supportedFileTypes P = true ↔ ∃ e ∈ extensions, e.data <:+ P.data := by
  simp only [supportedFileTypes, HasSuffix, List.any_eq_true, List.isSuffixOf_iff_suffix]

/-- Claim C1: a path is accepted exactly when an entry of the allow-list (an
extension or a bare name alike) is a suffix of it; the result is a function of
the characters of the path alone. -/
theorem supportedFileTypes_iff_suffix (P : String) :
    (supportedFileTypes P = true ↔ ∃ e ∈ extensions, e.data <:+ P.data) ∧
    (∀ Q : String, Q.data = P.data → supportedFileTypes Q = supportedFileTypes P) := by
  refine ⟨supportedFileTypes_eq_true_iff P, ?_⟩
  intro Q h
  rw [String.ext h]

/-- Counterexample to claim C2 as stated: `foo.terraform.bak` is rejected. -/
theorem supportedFileTypes_terraform_bak_rejected :
    ¬ (supportedFileTypes "foo.terraform.bak" = true) := by
  decide

/-- Claim C2 as amended: `foo.terraform.bak` is rejected, no entry of the
allow-list being a suffix of it, while every path that ends in `.terraform`,
such as `foo.bak.terraform`, is accepted. -/
theorem supportedFileTypes_terraform_suffix :
    supportedFileTypes "foo.terraform.bak" = false ∧
    (∀ e ∈ extensions, ¬ (e.data <:+ "foo.terraform.bak".data)) ∧
    (∀ stem : String, supportedFileTypes (stem ++ ".terraform") = true) ∧
    supportedFileTypes "foo.bak.terraform" = true := by
  have h1 : supportedFileTypes "foo.terraform.bak" = false := by decide
  refine ⟨h1, ?_, ?_, by decide⟩
  · intro e he hs
    have := (supportedFileTypes_eq_true_iff "foo.terraform.bak").mpr ⟨e, he, hs⟩
    rw [h1] at this
    exact absurd this (by decide)
  · intro stem
    refine (supportedFileTypes_eq_true_iff _).mpr ⟨".terraform", by decide, ?_⟩
    rw [String.data_append]
    exact List.suffix_append _ _

/-! ## Blank lines -/

/-- Claim C6: on a line that consists of white space only (the empty line
included) the function, which is total, returns the empty string. -/
theorem extractFunctionName_blank (L : String) (h : ∀ c ∈ L.data, isSpace c = true) :
    extractFunctionName L = "" := by
  rw [extractFunctionName_eq, trimSpace_blank L h]
  decide

/-- Witness for claim C6: a line of a blank, a tab and a carriage return. -/
theorem extractFunctionName_blank_witness : extractFunctionName " \t\r" = "" :=
  extractFunctionName_blank " \t\r" (by decide)

/-! ## Indexing: what is sent to the store -/

/-- The records of the lines `lines`, numbered from `n + 1`. -/
theorem scanLoop_indexed (es : Store) (repoUrl path : String) :
    ∀ (lines : List String) (n : Nat) (w : World),
      (scanLoop es repoUrl path lines n w).indexed =
        w.indexed ++ (lines.enumFrom (n + 1)).map fun il =>
          ({ Repository := repoUrl, FilePath := path, Line := il.1, Content := il.2,
             Function := extractFunctionName il.2 } : CodeLine) := by
  intro lines
  induction lines with
  | nil => intro n w; simp [scanLoop]
  | cons line rest ih =>
    intro n w
    simp only [scanLoop, List.enumFrom_cons, List.map_cons]
    rw [ih]
    cases es w.indexed _ <;> simp

theorem walkFn_agree (es : Store) (Open : String → Except String String) (repoUrl : String)
    (path : String) (isDir : Bool) (err : Option String) (w w' : World)
    (h : w.indexed = w'.indexed) :
    (walkFn es Open repoUrl path isDir err w).1.indexed =
        (walkFn acceptAll Open repoUrl path isDir err w').1.indexed ∧
      (walkFn es Open repoUrl path isDir err w).2 =
        (walkFn acceptAll Open repoUrl path isDir err w').2 := by
  unfold walkFn
  split
  · exact ⟨h, rfl⟩
  · split
    · exact ⟨h, rfl⟩
    · cases Open path with
      | error e => exact ⟨h, rfl⟩
      | ok content =>
        simp only [scanLoop_indexed, h, and_self]

mutual
theorem walk_agree (es : Store) (Open : String → Except String String) (repoUrl : String) :
    ∀ (e : Entry) (w w' : World), w.indexed = w'.indexed →
      (walk (walkFn es Open repoUrl) e w).1.indexed =
          (walk (walkFn acceptAll Open repoUrl) e w').1.indexed ∧
        (walk (walkFn es Open repoUrl) e w).2 = (walk (walkFn acceptAll Open repoUrl) e w').2
  | .file path, w, w', h => by
    simp only [walk]
    exact walkFn_agree es Open repoUrl path false none w w' h
  | .dir path readErr children, w, w', h => by
    simp only [walk]
    have h1 := walkFn_agree es Open repoUrl path true readErr w w' h
    rcases hr : walkFn es Open repoUrl path true readErr w with ⟨w₁, e₁⟩
    rcases hr' : walkFn acceptAll Open repoUrl path true readErr w' with ⟨w₂, e₂⟩
    rw [hr, hr'] at h1
    simp only at h1
    obtain ⟨hi, he⟩ := h1
    subst he
    cases e₁ with
    | some err => exact ⟨hi, rfl⟩
    | none =>
      simp only
      split
      · exact ⟨hi, rfl⟩
      · exact walkList_agree es Open repoUrl children w₁ w₂ hi
  | .lstatErr path err, w, w', h => by
    simp only [walk]
    exact walkFn_agree es Open repoUrl path false (some err) w w' h
theorem walkList_agree (es : Store) (Open : String → Except String String)
    (repoUrl : String) :
    ∀ (l : List Entry) (w w' : World), w.indexed = w'.indexed →
      (walkList (walkFn es Open repoUrl) l w).1.indexed =
          (walkList (walkFn acceptAll Open repoUrl) l w').1.indexed ∧
        (walkList (walkFn es Open repoUrl) l w).2 =
          (walkList (walkFn acceptAll Open repoUrl) l w').2
  | [], w, w', h => by
    simp only [walkList]
    exact ⟨h, trivial⟩
  | e :: rest, w, w', h => by
    simp only [walkList]
    have h1 := walk_agree es Open repoUrl e w w' h
    rcases hr : walk (walkFn es Open repoUrl) e w with ⟨w₁, e₁⟩
    rcases hr' : walk (walkFn acceptAll Open repoUrl) e w' with ⟨w₂, e₂⟩
    rw [hr, hr'] at h1
    simp only at h1
    obtain ⟨hi, he⟩ := h1
    subst he
    cases e₁ with
    | some err => exact ⟨hi, rfl⟩
    | none => exact walkList_agree es Open repoUrl rest w₁ w₂ hi
end

theorem walkFn_error (es : Store) (Open : String → Except String String) (repoUrl : String)
    (path : String) (isDir : Bool) (err : Option String) (w : World) (e : String)
    (h : (walkFn es Open repoUrl path isDir err w).2 = some e) : Open path = .error e := by
  unfold walkFn at h
  split at h
  · simp at h
  · split at h
    · simp at h
    · cases ho : Open path with
      | error e' =>
        rw [ho] at h
        simp only [Option.some.injEq] at h
        rw [h]
      | ok content =>
        rw [ho] at h
        simp at h

mutual
theorem walk_error (es : Store) (Open : String → Except String String) (repoUrl : String) :
    ∀ (t : Entry) (w : World) (e : String),
      (walk (walkFn es Open repoUrl) t w).2 = some e → ∃ path, Open path = .error e
  | .file path, w, e, h => by
    simp only [walk] at h
    exact ⟨path, walkFn_error es Open repoUrl path false none w e h⟩
  | .dir path readErr children, w, e, h => by
    simp only [walk] at h
    rcases hr : walkFn es Open repoUrl path true readErr w with ⟨w₁, e₁⟩
    rw [hr] at h
    cases e₁ with
    | some err =>
      simp only [Option.some.injEq] at h
      subst h
      exact ⟨path, walkFn_error es Open repoUrl path true readErr w err (by rw [hr])⟩
    | none =>
      simp only at h
      split at h
      · simp at h
      · exact walkList_error es Open repoUrl children w₁ e h
  | .lstatErr path err, w, e, h => by
    simp only [walk] at h
    exact ⟨path, walkFn_error es Open repoUrl path false (some err) w e h⟩
theorem walkList_error (es : Store) (Open : String → Except String String)
    (repoUrl : String) :
    ∀ (l : List Entry) (w : World) (e : String),
      (walkList (walkFn es Open repoUrl) l w).2 = some e → ∃ path, Open path = .error e
  | [], w, e, h => by
    simp [walkList] at h
  | t :: rest, w, e, h => by
    simp only [walkList] at h
    rcases hr : walk (walkFn es Open repoUrl) t w with ⟨w₁, e₁⟩
    rw [hr] at h
    cases e₁ with
    | some err =>
      simp only [Option.some.injEq] at h
      subst h
      exact walk_error es Open repoUrl t w err (by rw [hr])
    | none => exact walkList_error es Open repoUrl rest w₁ e h
end

/-- An error returned by `indexCode` is the error of opening some file, whatever
the store answered. -/
theorem indexCode_error_from_open (es : Store) (Open : String → Except String String)
    (repoUrl : String) (root : Entry) (w : World) (e : String)
    (h : (indexCode es Open repoUrl root w).2 = some e) : ∃ path, Open path = .error e :=
  walk_error es Open repoUrl root w e h

/-- Claim C10: whatever the store answers to the single documents, `indexCode`
sends the records it sends to a store that accepts everything, and returns the
error it returns then. -/
theorem indexCode_store_independent (es : Store) (Open : String → Except String String)
    (repoUrl : String) (root : Entry) (w : World) :
    (indexCode es Open repoUrl root w).1.indexed =
        (indexCode acceptAll Open repoUrl root w).1.indexed ∧
      (indexCode es Open repoUrl root w).2 = (indexCode acceptAll Open repoUrl root w).2 :=
  walk_agree es Open repoUrl root w w rfl

/-! ## Reading lines: the scanner's buffer -/

theorem utf8Len_replicate_a (n : Nat) : utf8Len (List.replicate n 'a') = n := by
  induction n with
  | zero => rfl
  | succ n ih =>
    have e : utf8Len (List.replicate (n + 1) 'a') = 'a'.utf8Size + utf8Len (List.replicate n 'a') := by
      simp [utf8Len, List.replicate_succ]
    rw [e, ih]
    have : 'a'.utf8Size = 1 := by decide
    omega

theorem utf8Len_longLine : utf8Len longLine = MaxScanTokenSize + 1 := by
  unfold longLine
  exact utf8Len_replicate_a _

/-- The scanner reads over a run of letters `a` without yielding a token. -/
theorem scanFrom_replicate_a (limit : Option Nat) (data : List Char) :
    ∀ (n : Nat) (cur : List Char),
      scanFrom limit cur (List.replicate n 'a' ++ data) =
        scanFrom limit (List.replicate n 'a' ++ cur) data := by
  intro n
  induction n with
  | zero => intro cur; rfl
  | succ n ih =>
    intro cur
    have e1 : List.replicate (n + 1) 'a' ++ data = 'a' :: (List.replicate n 'a' ++ data) := by
      simp [List.replicate_succ]
    have e2 : List.replicate (n + 1) 'a' ++ cur = List.replicate n 'a' ++ 'a' :: cur := by
      rw [List.replicate_succ']
      simp
    rw [e1, e2, scanFrom, if_neg (by decide), ih]

theorem scanFrom_longLine (limit : Option Nat) (data : List Char) :
    scanFrom limit [] (longLine ++ data) = scanFrom limit longLine data := by
  have := scanFrom_replicate_a limit data (MaxScanTokenSize + 1) []
  unfold longLine
  simpa using this

/-- A line longer than `MaxScanTokenSize` bytes ends the scan: nothing more is
yielded. -/
theorem scannerLines_longLine (data : List Char) :
    scanFrom (some MaxScanTokenSize) [] (longLine ++ '\n' :: data) = [] := by
  rw [scanFrom_longLine, scanFrom, if_pos rfl]
  simp [utf8Len_longLine]

theorem supportedFileTypes_big_go : supportedFileTypes "big.go" = true := by decide

theorem dropCR_longLine_reverse : dropCR longLine.reverse = longLine := by
  unfold longLine
  rw [List.reverse_replicate, dropCR, if_neg]
  rw [List.replicate_succ']
  simp

/-- Claim C7 fails on the code: a file `big.go` whose only line has 65537 bytes
has one line, and the callback of `indexCode` submits no record for it.  (One
defect with claim C8: the default buffer of `bufio.Scanner`.) -/
theorem walkFn_long_line_no_record (es : Store) (repoUrl : String) (w : World) :
    fileLines (String.mk (longLine ++ ['\n'])) = [String.mk longLine] ∧
    (walkFn es (fun _ => .ok (String.mk (longLine ++ ['\n']))) repoUrl "big.go" false none
      w).1.indexed = w.indexed ∧
    (walkFn es (fun _ => .ok (String.mk (longLine ++ ['\n']))) repoUrl "big.go" false none
      w).2 = none := by
  refine ⟨?_, ?_, ?_⟩
  · simp only [fileLines, scanFrom_longLine]
    simp [scanFrom, dropCR_longLine_reverse]
  · simp only [walkFn, supportedFileTypes_big_go, scannerLines, scannerLines_longLine]
    simp [scanLoop]
  · simp only [walkFn, supportedFileTypes_big_go]
    simp

theorem extractFunctionName_x : extractFunctionName "x" = "" := by decide

/-- Claim C8 fails on the code: in a file `big.go` of three lines whose second
line has 65537 bytes, the callback of `indexCode` submits the first line only:
the long line is not emitted, nor is the line after it, and no error is
returned.  (One defect with claim C7.) -/
theorem walkFn_long_line_stops (es : Store) (repoUrl : String) (w : World) :
    fileLines (String.mk ('x' :: '\n' :: (longLine ++ '\n' :: 'y' :: ['\n']))) =
      ["x", String.mk longLine, "y"] ∧
    (walkFn es (fun _ => .ok (String.mk ('x' :: '\n' :: (longLine ++ '\n' :: 'y' :: ['\n']))))
      repoUrl "big.go" false none w).1.indexed =
      w.indexed ++ [(⟨repoUrl, "big.go", 1, "x", ""⟩ : CodeLine)] ∧
    (walkFn es (fun _ => .ok (String.mk ('x' :: '\n' :: (longLine ++ '\n' :: 'y' :: ['\n']))))
      repoUrl "big.go" false none w).2 = none := by
  refine ⟨?_, ?_, ?_⟩
  · simp only [fileLines, scanFrom]
    simp only [Char.reduceEq, if_false, if_true, scanFrom_longLine]
    simp only [scanFrom, Char.reduceEq, if_false, if_true, Option.all_none,
      dropCR_longLine_reverse]
    simp [dropCR]
  · simp only [walkFn, supportedFileTypes_big_go, scannerLines, scanFrom]
    simp only [Char.reduceEq, if_false, if_true, scannerLines_longLine]
    have hx : 'x'.utf8Size = 1 := by decide
    simp [scanLoop_indexed, utf8Len, dropCR, extractFunctionName_x, MaxScanTokenSize, hx]
  · simp only [walkFn, supportedFileTypes_big_go]
    simp

theorem utf8Len_append (a b : List Char) : utf8Len (a ++ b) = utf8Len a + utf8Len b := by
  simp [utf8Len]

theorem utf8Len_reverse (l : List Char) : utf8Len l.reverse = utf8Len l := by
  induction l with
  | nil => rfl
  | cons c l ih =>
    rw [List.reverse_cons, utf8Len_append, ih]
    simp [utf8Len]
    omega

theorem utf8Len_dropCR (l : List Char) : utf8Len l ≤ utf8Len (dropCR l) + 1 := by
  unfold dropCR
  split
  · rename_i h
    have e : l = l.dropLast ++ ['\r'] := by
      have := List.dropLast_append_getLast? '\r' (by simpa using h)
      exact this.symm
    have h1 : utf8Len l = utf8Len l.dropLast + utf8Len ['\r'] := by
      conv_lhs => rw [e]
      exact utf8Len_append _ _
    have h2 : utf8Len ['\r'] = 1 := by decide
    omega
  · omega

/-- When every line of the file, with room for a carriage return, is shorter
than the buffer, the scanner yields the lines of the file. -/
theorem scanFrom_fits (n : Nat) :
    ∀ (data cur : List Char),
      (∀ l ∈ scanFrom none cur data, utf8Len l.data + 1 < n) →
      scanFrom (some n) cur data = scanFrom none cur data := by
  intro data
  induction data with
  | nil =>
    intro cur h
    simp only [scanFrom] at h ⊢
    by_cases hc : cur = []
    · simp [hc]
    · simp only [hc, if_false, Option.all_none, if_true, List.mem_singleton,
        forall_eq] at h
      have h1 := utf8Len_dropCR cur.reverse
      rw [utf8Len_reverse] at h1
      have h2 : utf8Len cur < n := by omega
      simp [hc, h2]
  | cons c data ih =>
    intro cur h
    simp only [scanFrom] at h ⊢
    by_cases hc : c = '\n'
    · simp only [hc, if_true, Option.all_none, List.mem_cons, forall_eq_or_imp] at h
      have h1 := utf8Len_dropCR cur.reverse
      rw [utf8Len_reverse] at h1
      have h2 : utf8Len cur < n := by omega
      simp [hc, h2, ih [] h.2]
    · simp only [hc, if_false] at h ⊢
      exact ih (c :: cur) h

/-- The part of claim C7 that the code meets: for an eligible file that opens
and whose lines are shorter than the scanner's buffer, the callback submits one
record for each line, in order, numbered from 1, with the raw line and the name
extracted from it, and returns nil. -/
theorem walkFn_short_lines (es : Store) (Open : String → Except String String)
    (repoUrl path content : String) (w : World) (hs : supportedFileTypes path = true)
    (ho : Open path = .ok content)
    (hfit : ∀ l ∈ fileLines content, utf8Len l.data + 1 < MaxScanTokenSize) :
    (walkFn es Open repoUrl path false none w).1.indexed =
        w.indexed ++ ((fileLines content).enumFrom 1).map (fun il =>
          ({ Repository := repoUrl, FilePath := path, Line := il.1, Content := il.2,
             Function := extractFunctionName il.2 } : CodeLine)) ∧
      (walkFn es Open repoUrl path false none w).2 = none := by
  have e : scannerLines content = fileLines content := scanFrom_fits _ _ _ hfit
  simp [walkFn, hs, ho, e, scanLoop_indexed]

/-! ## Loading the configuration -/

/-- Claim C9 fails on the code: when the file can be read, `readYAML` returns a
nil error whatever the YAML decoder reports, and `main` goes on with the
configuration the decoder left behind. -/
theorem readYAML_drops_decode_error (Unmarshal : String → Config → Config × Option String)
    (file data : String) :
    (readYAML (fun _ => .ok data) Unmarshal file).2 = none ∧
    mainLoadConfig (fun _ => .ok data) Unmarshal = .proceed (Unmarshal data ⟨[]⟩).1 := by
  constructor
  · simp [readYAML]
  · simp [mainLoadConfig, readYAML]

/-- The failing input of claim C9: the unterminated document `repos: [`, on
which a decoder reports an error and leaves the configuration empty. -/
theorem readYAML_malformed_example :
    readYAML (fun _ => .ok "repos: [")
        (fun _ c => (c, some "yaml: line 1: did not find expected node content"))
        "repos.yaml" = (⟨[]⟩, none) ∧
    mainLoadConfig (fun _ => .ok "repos: [")
        (fun _ c => (c, some "yaml: line 1: did not find expected node content")) =
      .proceed ⟨[]⟩ := by
  constructor <;> rfl

/-- An unreadable file is reported: `readYAML` returns the error of `os.ReadFile`
and `main` aborts. -/
theorem readYAML_read_error (Unmarshal : String → Config → Config × Option String)
    (file err : String) :
    (readYAML (fun _ => .error err) Unmarshal file).2 = some err ∧
    mainLoadConfig (fun _ => .error err) Unmarshal = .fatal err := by
  constructor <;> rfl

end Codesearch
